import Mathlib

/-!
# slog-handler-adapter: attribute groups, flatteners and handlers

A shallow embedding of the Go packages `helper` (group_attr.go), `logrus`
(handler.go, level.go), `zap` (handler.go, key.go, level.go) and of the
level constants of the root package (level.go), followed by theorems about
them.

Conventions of the embedding:
* a `slog.Attr` is a key with either a non-group payload (`Attr.leaf`) or the
  list of attributes of a group (`Attr.group`); the code only ever asks a value
  whether its kind is `KindGroup`;
* Go slices are lists with value semantics, except in the sections on
  `helper.sliced`, which keep the backing arrays; a Go map `map[string]T` is an
  association list kept with pairwise distinct keys, in insertion order;
* a Go function returning `(m, err)` whose caller reads `m` only when `err` is
  nil returns `Except Err _`;
* the backend sink is an explicit log of the writes performed.
-/

/-! ## Data model -/

/-- Payload of a `slog.Value` whose kind is not `KindGroup`, as returned by
`Value.Any()`. Times and durations are counted in nanoseconds, a float is kept
as its bit pattern. -/
inductive Scalar where
  | str (s : String)
  | int (n : Int)
  | uint (n : Nat)
  | float (bits : Nat)
  | bool (b : Bool)
  | duration (ns : Int)
  | time (ns : Int)
  | any (repr : String)
deriving DecidableEq, Repr

/-- A `slog.Attr`: `leaf k v` has key `k` and a non-group value, `group k as`
has key `k` and a value of kind `KindGroup` holding the attributes `as`. -/
inductive Attr where
  | leaf (key : String) (v : Scalar)
  | group (key : String) (attrs : List Attr)
deriving Repr

/-- Field `Key` of a `slog.Attr`. -/
def Attr.Key : Attr → String
  | .leaf k _ => k
  | .group k _ => k

/-- Test `attr.Value.Kind() == slog.KindGroup`. -/
def Attr.isGroup : Attr → Bool
  | .leaf _ _ => false
  | .group _ _ => true

/-- Test `Value.isEmptyGroup` of log/slog: a group without attributes. -/
def Attr.isEmptyGroup : Attr → Bool
  | .group _ [] => true
  | _ => false

/-- Function `slog.Group(key, args...)` of the standard library, for arguments
that are all of type `slog.Attr`: the group attribute built by `GroupValue`,
which leaves out the arguments that are groups without attributes. -/
def slog.Group (key : String) (args : List Attr) : Attr :=
  .group key (args.filter (fun a => !a.isEmptyGroup))

/-- A value stored in a backend field: what `Value.Any()` returned, or the
nested field collection built for a group by the nested-object flatteners. -/
inductive FVal where
  | scalar (s : Scalar)
  | obj (fields : List (String × FVal))
deriving Repr

/-- The type `logrus.Fields`, a `map[string]interface{}`; the same shape
serves for a `[]zap.Field`, where it is a plain sequence. -/
abbrev Fields := List (String × FVal)

/-- Map test `_, ok := m[k]`. -/
def Fields.has (m : Fields) (k : String) : Bool :=
  m.any (fun p => p.1 == k)

/-- Map assignment `m[k] = v`: replaces the entry of `k` when there is one,
adds an entry otherwise. -/
def Fields.set (m : Fields) (k : String) (v : FVal) : Fields :=
  if m.has k then m.map (fun p => if p.1 == k then (k, v) else p)
  else m ++ [(k, v)]

/-- Errors that `Handle` can return: `dupKey k` is
`fmt.Errorf("dup key: %s", k)`, `backend msg` is an error handed back by the
write of the zap core. -/
inductive Err where
  | dupKey (key : String)
  | backend (msg : String)
deriving DecidableEq, Repr

deriving instance DecidableEq for Except

/-- The fields of a `slog.Record` that `Handle` reads. `Time` is the instant
in nanoseconds, `0` being the zero time; `PC` is `0` when there is no source
location; `attrs` is the sequence that `Record.Attrs` iterates over. -/
structure Record where
  Time : Int
  Message : String
  Level : Int
  PC : Nat
  attrs : List Attr
deriving Repr

/-- The fields of a `runtime.Frame` that `Handle` reads. -/
structure Frame where
  File : String
  Line : Nat
  Function : String
deriving Repr

/-- The string `fmt.Sprintf("%s:%d", f.File, f.Line)`. -/
def Frame.fileLine (f : Frame) : String :=
  f.File ++ ":" ++ toString f.Line

/-! ## Package logger: level.go -/

namespace logger

def LevelTrace : Int := -8
def LevelDebug : Int := -4
def LevelInfo : Int := 0
def LevelWarn : Int := 4
def LevelError : Int := 8
def LevelPanic : Int := 12
def LevelFatal : Int := 16

end logger

/-! ## Package helper: group_attr.go -/

namespace helper

/-- The struct `AttrGroup`; `top` is `none` for the nil pointer. -/
inductive AttrGroup where
  | mk (name : String) (attrs : List Attr) (top : Option AttrGroup)
deriving Repr

namespace AttrGroup

def name : AttrGroup → String
  | .mk n _ _ => n

def attrs : AttrGroup → List Attr
  | .mk _ as _ => as

def top : AttrGroup → Option AttrGroup
  | .mk _ _ t => t

/-- The value `&AttrGroup{}`. -/
def empty : AttrGroup := .mk "" [] none

def clone (g : AttrGroup) : AttrGroup :=
  .mk g.name g.attrs g.top

def WithGroup (g : AttrGroup) (name : String) : AttrGroup :=
  if name = "" then g.clone
  else .mk name [] (some g)

/-- Method `WithAttrs`. The attribute list of the result is the value that
`append(g.attrs, attrs...)` returns; which backing array holds it, and what a
later `append` on the receiver does to it, is kept in `helper.sliced`. -/
def WithAttrs (g : AttrGroup) (attrs : List Attr) : AttrGroup :=
  if attrs.length = 0 then g.clone
  else .mk g.name (g.attrs ++ attrs) g.top

/-- The loops `for i, attr := range xs` of `Attrs` that copy the attributes
whose key is not empty. -/
def keepKeyed (xs : List Attr) : List Attr :=
  xs.filter (fun a => a.Key ≠ "")

mutual
/-- One iteration of the loop of `Attrs` at the frame `head`, with `rt` the
result accumulated so far, followed by the remaining iterations. -/
def attrsStep : AttrGroup → List Attr → List Attr
  | .mk name attrs top, rt =>
    if name ≠ "" then
      attrsLoop top [slog.Group name (keepKeyed attrs ++ keepKeyed rt)]
    else
      attrsLoop top (rt ++ attrs)
termination_by structural g => g
/-- The loop `for head := g; head != nil; head = head.top` of `Attrs`. -/
def attrsLoop : Option AttrGroup → List Attr → List Attr
  | none, rt => rt
  | some head, rt => attrsStep head rt
termination_by structural g => g
end

def Attrs (g : AttrGroup) : List Attr :=
  attrsLoop (some g) []

end AttrGroup

end helper

/-! ## Package logrus: level.go, handler.go -/

namespace logrus

/-- Levels of the logrus library (`logrus.Level`), by their numeric value. -/
def PanicLevel : Nat := 0
def FatalLevel : Nat := 1
def ErrorLevel : Nat := 2
def WarnLevel : Nat := 3
def InfoLevel : Nat := 4
def DebugLevel : Nat := 5
def TraceLevel : Nat := 6

def level2LogrusLevel (level : Int) : Nat :=
  if level = logger.LevelTrace then TraceLevel
  else if level = logger.LevelDebug then DebugLevel
  else if level = logger.LevelInfo then InfoLevel
  else if level = logger.LevelWarn then WarnLevel
  else if level = logger.LevelError then ErrorLevel
  else if level = logger.LevelPanic then PanicLevel
  else if level = logger.LevelFatal then FatalLevel
  else TraceLevel

/-- Modelled from the spec: the constants `timeKey`, `fileKey` and `funcKey`
of package logrus are declared in a file that is not among the sources; the
spec names the fixed field keys file, func and time, and package zap declares
them with these values. -/
def timeKey : String := "time"
def fileKey : String := "file"
def funcKey : String := "func"

/-- The struct `HandlerOptions`. -/
structure HandlerOptions where
  AddSource : Bool
  JSONFormatter : Bool
  Level : Int
deriving Repr

/-- The struct `Handler`. The logger `logr` is the sink and is passed to
`Handle` explicitly; `level` is the value currently held by the shared
`slog.LevelVar`. -/
structure Handler where
  addSource : Bool
  isJSON : Bool
  level : Int
  attrGroup : helper.AttrGroup
deriving Repr

/-- One call `logr.WithFields(fields).Log(level, msg)`: the entry handed to
the logrus library. What the library does with it afterwards (formatting,
its own handling of the panic level) is outside the embedding. -/
structure Entry where
  level : Nat
  msg : String
  fields : Fields
deriving Repr

/-- The sink: the calls made on the logrus logger, oldest first. -/
abbrev Logger := List Entry

def NewHandler (options : HandlerOptions) : Handler where
  addSource := options.AddSource
  isJSON := options.JSONFormatter
  level := options.Level
  attrGroup := helper.AttrGroup.empty

namespace Handler

def clone (h : Handler) : Handler where
  addSource := h.addSource
  isJSON := h.isJSON
  level := h.level
  attrGroup := h.attrGroup

def Enabled (h : Handler) (level : Int) : Bool :=
  decide (h.level ≥ level)

def WithAttrs (h : Handler) (attrs : List Attr) : Handler :=
  { h.clone with attrGroup := h.clone.attrGroup.WithAttrs attrs }

def WithGroup (h : Handler) (name : String) : Handler :=
  { h.clone with attrGroup := h.clone.attrGroup.WithGroup name }

end Handler

mutual
/-- Body of the loop of the closure `rec` of `attrs2TextLogrusField` for one
attribute; `m` is the captured map. -/
def recTextAttr (pfx : String) : Attr → Fields → Except Err Fields
  | .leaf key v, m =>
    if m.has (pfx ++ key) then .error (.dupKey key)
    else .ok (m.set (pfx ++ key) (.scalar v))
  | .group key attrs, m =>
    if m.has (pfx ++ key) then .error (.dupKey key)
    else recText (pfx ++ key ++ ".") attrs m
termination_by structural a => a
/-- The closure `rec` of `attrs2TextLogrusField`. -/
def recText (pfx : String) : List Attr → Fields → Except Err Fields
  | [], m => .ok m
  | attr :: rest, m =>
    match recTextAttr pfx attr m with
    | .error e => .error e
    | .ok m1 => recText pfx rest m1
termination_by structural attrs => attrs
end

def attrs2TextLogrusField (attrs : List Attr) : Except Err Fields :=
  recText "" attrs []

mutual
/-- Body of the loop of the closure `rec` of `attrs2JSONLogrusField` for one
attribute; `m` is the map of the current nesting level. -/
def recJSONAttr : Attr → Fields → Except Err Fields
  | .leaf key v, m =>
    if m.has key then .error (.dupKey key)
    else .ok (m.set key (.scalar v))
  | .group key attrs, m =>
    if m.has key then .error (.dupKey key)
    else
      match recJSON attrs [] with
      | .error e => .error e
      | .ok inner => .ok (m.set key (.obj inner))
termination_by structural a => a
/-- The closure `rec` of `attrs2JSONLogrusField`. -/
def recJSON : List Attr → Fields → Except Err Fields
  | [], m => .ok m
  | attr :: rest, m =>
    match recJSONAttr attr m with
    | .error e => .error e
    | .ok m1 => recJSON rest m1
termination_by structural attrs => attrs
end

def attrs2JSONLogrusField (attrs : List Attr) : Except Err Fields :=
  recJSON attrs []

namespace Handler

/-- The attribute sequence that `Handle` flattens: the record attributes with
a non-empty key, added to the chain and resolved. -/
def mergedAttrs (h : Handler) (r : Record) : List Attr :=
  (h.attrGroup.WithAttrs (r.attrs.filter (fun a => a.Key ≠ ""))).Attrs

/-- The flattener call of `Handle`, chosen by `isJSON`. -/
def flatten (h : Handler) (r : Record) : Except Err Fields :=
  if h.isJSON then attrs2JSONLogrusField (h.mergedAttrs r)
  else attrs2TextLogrusField (h.mergedAttrs r)

/-- The statements of `Handle` that add the time and source fields. -/
def addRecordFields (callersFrames : Nat → Frame) (h : Handler) (r : Record)
    (fields : Fields) : Fields :=
  let fields1 :=
    if r.Time ≠ 0 then fields.set timeKey (.scalar (.time r.Time)) else fields
  if h.addSource && r.PC ≠ 0 then
    (fields1.set fileKey (.scalar (.str (callersFrames r.PC).fileLine))).set
      funcKey (.scalar (.str (callersFrames r.PC).Function))
  else fields1

/-- Method `Handle`. `callersFrames pc` is the first frame of
`runtime.CallersFrames([]uintptr{pc})`; the result is the returned error
(`none` for nil) and the sink after the call. -/
def Handle (callersFrames : Nat → Frame) (h : Handler) (r : Record)
    (logr : Logger) : Option Err × Logger :=
  match h.flatten r with
  | .error err => (some err, logr)
  | .ok fields =>
    (none, logr ++ [⟨level2LogrusLevel r.Level, r.Message,
      addRecordFields callersFrames h r fields⟩])

end Handler

end logrus

/-! ## Package zap: key.go, level.go, handler.go -/

namespace zap

def fileKey : String := "file"
def funcKey : String := "func"
def timeKey : String := "time"

/-- Levels of the zap library (`zapcore.Level`), by their numeric value. -/
def DebugLevel : Int := -1
def InfoLevel : Int := 0
def WarnLevel : Int := 1
def ErrorLevel : Int := 2
def DPanicLevel : Int := 3
def PanicLevel : Int := 4
def FatalLevel : Int := 5

def TraceLevel : Int := DebugLevel - 1

def level2ZapLevel (level : Int) : Int :=
  if level = logger.LevelTrace then TraceLevel
  else if level = logger.LevelDebug then DebugLevel
  else if level = logger.LevelInfo then InfoLevel
  else if level = logger.LevelWarn then WarnLevel
  else if level = logger.LevelError then ErrorLevel
  else if level = logger.LevelPanic then PanicLevel
  else if level = logger.LevelFatal then FatalLevel
  else TraceLevel

/-- The struct `HandlerOptions`. -/
structure HandlerOptions where
  AddSource : Bool
  JSONFormatter : Bool
  Level : Int
  EnableStacktrace : Bool
deriving Repr

/-- The struct `Handler`. The core is the sink and is passed to `Handle`
explicitly; `level` is the value currently held by the shared
`slog.LevelVar`. -/
structure Handler where
  addSource : Bool
  isJSON : Bool
  level : Int
  attrGroup : helper.AttrGroup
deriving Repr

/-- One call `core.Write(zapcore.Entry{Level, Message}, fields)`. -/
structure Written where
  Level : Int
  Message : String
  fields : Fields
deriving Repr

/-- The sink: the calls of `Write` made on the core, oldest first, and the
error that the core returns from `Write` (`none` for nil). -/
structure Core where
  written : List Written
  writeErr : Option Err
deriving Repr

def Core.Write (c : Core) (w : Written) : Option Err × Core :=
  (c.writeErr, { c with written := c.written ++ [w] })

def NewHandler (options : HandlerOptions) : Handler where
  addSource := options.AddSource
  isJSON := options.JSONFormatter
  level := options.Level
  attrGroup := helper.AttrGroup.empty

namespace Handler

def clone (h : Handler) : Handler where
  addSource := h.addSource
  isJSON := h.isJSON
  level := h.level
  attrGroup := h.attrGroup

def Enabled (h : Handler) (level : Int) : Bool :=
  decide (h.level ≥ level)

def WithAttrs (h : Handler) (attrs : List Attr) : Handler :=
  { h.clone with attrGroup := h.clone.attrGroup.WithAttrs attrs }

def WithGroup (h : Handler) (name : String) : Handler :=
  { h.clone with attrGroup := h.clone.attrGroup.WithGroup name }

end Handler

/-- State of `attrs2TextLogrusField` and of one call of
`attrs2JSONLogrusField`: the field slice `m` and the key set `dupKeyMap`. -/
structure FlatState where
  m : Fields
  dupKeyMap : List String
deriving Repr

mutual
/-- Body of the loop of the closure `rec` of `attrs2TextLogrusField` for one
attribute. -/
def recTextAttr (pfx : String) : Attr → FlatState → Except Err FlatState
  | .leaf key v, s =>
    if s.dupKeyMap.contains (pfx ++ key) then .error (.dupKey key)
    else .ok ⟨s.m ++ [(pfx ++ key, .scalar v)], (pfx ++ key) :: s.dupKeyMap⟩
  | .group key attrs, s =>
    if s.dupKeyMap.contains (pfx ++ key) then .error (.dupKey key)
    else recText (pfx ++ key ++ ".") attrs ⟨s.m, (pfx ++ key) :: s.dupKeyMap⟩
termination_by structural a => a
/-- The closure `rec` of `attrs2TextLogrusField`. -/
def recText (pfx : String) : List Attr → FlatState → Except Err FlatState
  | [], s => .ok s
  | attr :: rest, s =>
    match recTextAttr pfx attr s with
    | .error e => .error e
    | .ok s1 => recText pfx rest s1
termination_by structural attrs => attrs
end

/-- Function `attrs2TextLogrusField`; the slice returned is the one the
closure has appended to. -/
def attrs2TextLogrusField (attrs : List Attr) : Except Err Fields :=
  match recText "" attrs ⟨[], []⟩ with
  | .error e => .error e
  | .ok s => .ok s.m

mutual
/-- Body of the loop of `attrs2JSONLogrusField` for one attribute. -/
def jsonAttr : Attr → FlatState → Except Err FlatState
  | .leaf key v, s =>
    if s.dupKeyMap.contains key then .error (.dupKey key)
    else .ok ⟨s.m ++ [(key, .scalar v)], key :: s.dupKeyMap⟩
  | .group key attrs, s =>
    if s.dupKeyMap.contains key then .error (.dupKey key)
    else
      match jsonLoop attrs ⟨[], []⟩ with
      | .error e => .error e
      | .ok inner => .ok ⟨s.m ++ [(key, .obj inner.m)], key :: s.dupKeyMap⟩
termination_by structural a => a
/-- The loop `for _, attr := range attrs` of `attrs2JSONLogrusField`. -/
def jsonLoop : List Attr → FlatState → Except Err FlatState
  | [], s => .ok s
  | attr :: rest, s =>
    match jsonAttr attr s with
    | .error e => .error e
    | .ok s1 => jsonLoop rest s1
termination_by structural attrs => attrs
end

def attrs2JSONLogrusField (attrs : List Attr) : Except Err Fields :=
  match jsonLoop attrs ⟨[], []⟩ with
  | .error e => .error e
  | .ok s => .ok s.m

namespace Handler

/-- The attribute sequence that `Handle` flattens: the record attributes with
a non-empty key, added to the chain and resolved. -/
def mergedAttrs (h : Handler) (r : Record) : List Attr :=
  (h.attrGroup.WithAttrs (r.attrs.filter (fun a => a.Key ≠ ""))).Attrs

/-- The flattener call of `Handle`, chosen by `isJSON`. -/
def flatten (h : Handler) (r : Record) : Except Err Fields :=
  if h.isJSON then attrs2JSONLogrusField (h.mergedAttrs r)
  else attrs2TextLogrusField (h.mergedAttrs r)

/-- The statements of `Handle` that append the time and source fields. -/
def addRecordFields (callersFrames : Nat → Frame) (h : Handler) (r : Record)
    (fields : Fields) : Fields :=
  let fields1 :=
    if r.Time ≠ 0 then fields ++ [(timeKey, .scalar (.time r.Time))] else fields
  if h.addSource && r.PC ≠ 0 then
    fields1 ++ [(fileKey, .scalar (.str (callersFrames r.PC).fileLine)),
      (funcKey, .scalar (.str (callersFrames r.PC).Function))]
  else fields1

/-- Method `Handle`. `callersFrames pc` is the first frame of
`runtime.CallersFrames([]uintptr{pc})`; the result is the returned error
(`none` for nil) and the sink after the call. -/
def Handle (callersFrames : Nat → Frame) (h : Handler) (r : Record)
    (core : Core) : Option Err × Core :=
  match h.flatten r with
  | .error err => (some err, core)
  | .ok fields =>
    core.Write ⟨level2ZapLevel r.Level, r.Message,
      addRecordFields callersFrames h r fields⟩

end Handler

end zap

/-! ## Vocabulary of the statements -/

/-- Qualified key of an attribute: the keys of the enclosing groups `path`
(outermost first) and the attribute's own key, joined with dots. -/
def qualify : List String → String → String
  | [], key => key
  | g :: gs, key => g ++ "." ++ qualify gs key

mutual
/-- The non-group attributes found in an attribute, in walk order, each with
its qualified key and its value. -/
def Attr.leafEntries (path : List String) : Attr → List (String × Scalar)
  | .leaf key v => [(qualify path key, v)]
  | .group key attrs => leafEntries (path ++ [key]) attrs
termination_by structural a => a
/-- The non-group attributes of an attribute tree, in walk order, each with
its qualified key and its value. -/
def leafEntries (path : List String) : List Attr → List (String × Scalar)
  | [] => []
  | attr :: rest => attr.leafEntries path ++ leafEntries path rest
termination_by structural attrs => attrs
end

/-- Qualified keys of the non-group attributes of an attribute tree. -/
def leafKeys (path : List String) (attrs : List Attr) : List String :=
  (leafEntries path attrs).map Prod.fst

mutual
/-- Qualified keys of the groups found in an attribute. -/
def Attr.groupKeys (path : List String) : Attr → List String
  | .leaf _ _ => []
  | .group key attrs => qualify path key :: groupKeys (path ++ [key]) attrs
termination_by structural a => a
/-- Qualified keys of the groups of an attribute tree. -/
def groupKeys (path : List String) : List Attr → List String
  | [] => []
  | attr :: rest => attr.groupKeys path ++ groupKeys path rest
termination_by structural attrs => attrs
end

mutual
/-- Qualified keys of all attributes found in an attribute, groups included,
in walk order. -/
def Attr.nodeKeys (path : List String) : Attr → List String
  | .leaf key _ => [qualify path key]
  | .group key attrs => qualify path key :: nodeKeys (path ++ [key]) attrs
termination_by structural a => a
/-- Qualified keys of all attributes of an attribute tree, groups included,
in walk order. -/
def nodeKeys (path : List String) : List Attr → List String
  | [] => []
  | attr :: rest => attr.nodeKeys path ++ nodeKeys path rest
termination_by structural attrs => attrs
end

/-- The fields holding the given entries. -/
def toFields (es : List (String × Scalar)) : Fields :=
  es.map (fun e => (e.1, FVal.scalar e.2))

mutual
/-- The attribute lists found below an attribute: the children of every group
in it. -/
def Attr.childLists : Attr → List (List Attr)
  | .leaf _ _ => []
  | .group _ attrs => attrs :: childLists attrs
termination_by structural a => a
/-- The attribute lists found below the attributes of a list. -/
def childLists : List Attr → List (List Attr)
  | [] => []
  | attr :: rest => attr.childLists ++ childLists rest
termination_by structural attrs => attrs
end

/-- The attribute lists of a tree: the top level and the children of every
group. -/
def attrLists (attrs : List Attr) : List (List Attr) :=
  attrs :: childLists attrs

/-- Two attributes of one list have the same key. -/
def sameKeyTwice (l : List Attr) : Prop :=
  ¬ (l.map Attr.Key).Nodup

instance (l : List Attr) : Decidable (sameKeyTwice l) := by
  unfold sameKeyTwice
  infer_instance

/-- A step deriving a handler from another one. -/
inductive Op where
  | withAttrs (attrs : List Attr)
  | withGroup (name : String)
deriving Repr

/-- The logrus handler after one derivation step. -/
def Op.applyLogrus (h : logrus.Handler) : Op → logrus.Handler
  | .withAttrs attrs => h.WithAttrs attrs
  | .withGroup name => h.WithGroup name

/-- The logrus handler derived from `h` by the steps `ops`, in order. -/
def deriveLogrus (h : logrus.Handler) (ops : List Op) : logrus.Handler :=
  ops.foldl Op.applyLogrus h

/-- A step as the statements admit it: the attributes added are non-group
attributes with a non-empty key, the group opened has a non-empty name. -/
def Op.plain : Op → Prop
  | .withAttrs attrs => ∀ a ∈ attrs, a.isGroup = false ∧ a.Key ≠ ""
  | .withGroup name => name ≠ ""

/-- Number of attributes added by the steps. -/
def Op.attrCount : List Op → Nat
  | [] => 0
  | .withAttrs attrs :: ops => attrs.length + attrCount ops
  | .withGroup _ :: ops => attrCount ops

/-- The entries expected from the attributes added by the steps `ops` and
from the record attributes `recAttrs`: each attribute is keyed by the names of
the groups opened before it was added (`path` holds the ones opened so far),
joined with dots, followed by its own key. -/
def expectedEntries (path : List String) : List Op → List Attr → List (String × Scalar)
  | [], recAttrs => leafEntries path recAttrs
  | .withAttrs attrs :: ops, recAttrs =>
    leafEntries path attrs ++ expectedEntries path ops recAttrs
  | .withGroup name :: ops, recAttrs => expectedEntries (path ++ [name]) ops recAttrs

/-- The field keys that `Handle` of package logrus assigns itself for the record `r`. -/
def logrus.Handler.ownKeys (h : logrus.Handler) (r : Record) : List String :=
  (if r.Time ≠ 0 then [logrus.timeKey] else []) ++
    (if h.addSource && r.PC ≠ 0 then [logrus.fileKey, logrus.funcKey] else [])

/-- The keys of the fields that `Handle` of package zap appends itself for the
record `r`, in the order in which it appends them. -/
def zap.Handler.ownKeys (h : zap.Handler) (r : Record) : List String :=
  (if r.Time ≠ 0 then [zap.timeKey] else []) ++
    (if h.addSource && r.PC ≠ 0 then [zap.fileKey, zap.funcKey] else [])

mutual
/-- The frames of a chain, innermost first, each with its name and its
attributes. -/
def helper.AttrGroup.frames : helper.AttrGroup → List (String × List Attr)
  | .mk name attrs top => (name, attrs) :: helper.AttrGroup.framesOpt top
termination_by structural g => g
/-- The frames reached from a pointer to a chain, innermost first. -/
def helper.AttrGroup.framesOpt : Option helper.AttrGroup → List (String × List Attr)
  | none => []
  | some g => g.frames
termination_by structural g => g
end

/-- One iteration of the loop of `Attrs` on a frame given by its name and
attributes. -/
def stepFrame (rt : List Attr) (f : String × List Attr) : List Attr :=
  if f.1 ≠ "" then
    [slog.Group f.1 (helper.AttrGroup.keepKeyed f.2 ++ helper.AttrGroup.keepKeyed rt)]
  else rt ++ f.2

/-- Names of the named frames of a frame list (innermost first), outermost
first. -/
def framePath : List (String × List Attr) → List String
  | [] => []
  | f :: fs => if f.1 ≠ "" then framePath fs ++ [f.1] else framePath fs

/-- Entries of the attributes held by the frames of a frame list (innermost
first), each frame's attributes qualified by the names of the frames around
it. -/
def frameEntries : List (String × List Attr) → List (String × Scalar)
  | [] => []
  | f :: fs => frameEntries fs ++ leafEntries (framePath (f :: fs)) f.2

/-- The defined front-end levels, from trace to fatal. -/
def logger.levels : List Int :=
  [logger.LevelTrace, logger.LevelDebug, logger.LevelInfo, logger.LevelWarn,
    logger.LevelError, logger.LevelPanic, logger.LevelFatal]

/-- Severity order of the logrus library: its levels are numbered from the
most severe, `PanicLevel = 0`, to the least severe, `TraceLevel = 6`, so `a` is
less severe than `b` when its number is the greater one. -/
def logrus.lessSevere (a b : Nat) : Prop :=
  b < a

instance (a b : Nat) : Decidable (logrus.lessSevere a b) := by
  unfold logrus.lessSevere
  infer_instance

/-! ## Package helper at the level of slices and backing arrays

The definitions above give a `[]slog.Attr` value semantics. The ones below
keep the backing arrays, for statements about what `append` in `WithAttrs`
shares between chains. -/

namespace helper.sliced

/-- A value of type `[]slog.Attr`: the backing array it points into (by its
index in the heap; every slice here starts at the first cell), its length and
its capacity. The nil slice and `[]slog.Attr{}` have length and capacity 0. -/
structure Slice where
  array : Nat
  len : Nat
  cap : Nat
deriving DecidableEq, Repr

/-- The backing arrays allocated so far, each with as many cells as its
capacity. -/
abbrev Heap := List (List Attr)

/-- The zero value `slog.Attr{}`, found in the cells not yet written. -/
def zeroAttr : Attr := .leaf "" (.any "")

/-- The elements `s[0:len(s)]`. -/
def Heap.read (h : Heap) (s : Slice) : List Attr :=
  (h.getD s.array []).take s.len

/-- Capacity that `append` gives a new backing array in the Go runtime, for
an old capacity below 256: twice the old capacity, or the length needed when
that is larger. The rounding up to an allocation size class is left out. -/
def growCap (oldCap newLen : Nat) : Nat :=
  if newLen > 2 * oldCap then newLen else 2 * oldCap

/-- The built-in `append(s, xs...)`: when the capacity of `s` suffices the
elements are written into its backing array after the first `len(s)` cells,
otherwise a new backing array receives the elements of `s` and `xs`. -/
def Heap.append (h : Heap) (s : Slice) (xs : List Attr) : Heap × Slice :=
  if s.len + xs.length ≤ s.cap then
    (h.set s.array ((h.getD s.array []).take s.len ++ xs ++
        (h.getD s.array []).drop (s.len + xs.length)),
      ⟨s.array, s.len + xs.length, s.cap⟩)
  else
    (h ++ [h.read s ++ xs ++
        List.replicate (growCap s.cap (s.len + xs.length) - (s.len + xs.length)) zeroAttr],
      ⟨h.length, s.len + xs.length, growCap s.cap (s.len + xs.length)⟩)

/-- The struct `AttrGroup`, its field `attrs` being a slice. -/
inductive AttrGroup where
  | mk (name : String) (attrs : Slice) (top : Option AttrGroup)
deriving Repr

namespace AttrGroup

def name : AttrGroup → String
  | .mk n _ _ => n

def attrs : AttrGroup → Slice
  | .mk _ as _ => as

def top : AttrGroup → Option AttrGroup
  | .mk _ _ t => t

/-- The value `&AttrGroup{}`, its `attrs` the nil slice. -/
def empty : AttrGroup := .mk "" ⟨0, 0, 0⟩ none

def clone (g : AttrGroup) : AttrGroup :=
  .mk g.name g.attrs g.top

def WithGroup (g : AttrGroup) (name : String) : AttrGroup :=
  if name = "" then g.clone
  else .mk name ⟨0, 0, 0⟩ (some g)

/-- Method `WithAttrs`; the argument slice is given by its elements, the heap
is passed through. -/
def WithAttrs (h : Heap) (g : AttrGroup) (attrs : List Attr) : Heap × AttrGroup :=
  if attrs.length = 0 then (h, g.clone)
  else ((h.append g.attrs attrs).1, .mk g.name (h.append g.attrs attrs).2 g.top)

mutual
/-- The chain as the heap `h` shows it: every frame with the elements its
slice currently holds. -/
def view (h : Heap) : AttrGroup → helper.AttrGroup
  | .mk name attrs top => .mk name (h.read attrs) (viewOpt h top)
termination_by structural g => g
/-- The chain behind a pointer, as the heap `h` shows it. -/
def viewOpt (h : Heap) : Option AttrGroup → Option helper.AttrGroup
  | none => none
  | some g => some (view h g)
termination_by structural g => g
end

/-- Method `Attrs`, reading the slices in the heap `h`. -/
def Attrs (h : Heap) (g : AttrGroup) : List Attr :=
  (view h g).Attrs

end AttrGroup

/-- The heap and the chain `c` after
`c := (&AttrGroup{}).WithAttrs([a=1]).WithAttrs([b=2]).WithAttrs([c=3])`. -/
def sharedParent : Heap × AttrGroup :=
  AttrGroup.WithAttrs
    (AttrGroup.WithAttrs
      (AttrGroup.WithAttrs [] AttrGroup.empty [.leaf "a" (.int 1)]).1
      (AttrGroup.WithAttrs [] AttrGroup.empty [.leaf "a" (.int 1)]).2
      [.leaf "b" (.int 2)]).1
    (AttrGroup.WithAttrs
      (AttrGroup.WithAttrs [] AttrGroup.empty [.leaf "a" (.int 1)]).1
      (AttrGroup.WithAttrs [] AttrGroup.empty [.leaf "a" (.int 1)]).2
      [.leaf "b" (.int 2)]).2
    [.leaf "c" (.int 3)]

/-- The heap and the chain `d` after `d := c.WithAttrs([x=4])`. -/
def firstChild : Heap × AttrGroup :=
  AttrGroup.WithAttrs sharedParent.1 sharedParent.2 [.leaf "x" (.int 4)]

/-- The heap and the chain `e` after the later call `e := c.WithAttrs([y=5])`. -/
def secondChild : Heap × AttrGroup :=
  AttrGroup.WithAttrs firstChild.1 sharedParent.2 [.leaf "y" (.int 5)]

end helper.sliced

/-! ## Package helper and the logrus handler at the level of slices, for any
capacity growth

`helper.sliced.growCap` fixes the capacity of a new backing array. The
definitions below take that capacity from a function `grow`, of which the
statements only ask `newLen ≤ grow oldCap newLen`, so that they cover every
allocation policy of the runtime. -/

namespace helper.sliced

/-- The built-in `append(s, xs...)`, a new backing array being given the
capacity `grow (cap s) (len s + len xs)`. -/
def Heap.appendWith (grow : Nat → Nat → Nat) (h : Heap) (s : Slice) (xs : List Attr) :
    Heap × Slice :=
  if s.len + xs.length ≤ s.cap then
    (h.set s.array ((h.getD s.array []).take s.len ++ xs ++
        (h.getD s.array []).drop (s.len + xs.length)),
      ⟨s.array, s.len + xs.length, s.cap⟩)
  else
    (h ++ [h.read s ++ xs ++
        List.replicate (grow s.cap (s.len + xs.length) - (s.len + xs.length)) zeroAttr],
      ⟨h.length, s.len + xs.length, grow s.cap (s.len + xs.length)⟩)

/-- Method `WithAttrs` of `AttrGroup`, with `append` as `Heap.appendWith`. -/
def AttrGroup.WithAttrsWith (grow : Nat → Nat → Nat) (h : Heap) (g : AttrGroup)
    (attrs : List Attr) : Heap × AttrGroup :=
  if attrs.length = 0 then (h, g.clone)
  else ((h.appendWith grow g.attrs attrs).1,
    .mk g.name (h.appendWith grow g.attrs attrs).2 g.top)

mutual
/-- The slices of the frames of a chain, innermost first. -/
def AttrGroup.slices : AttrGroup → List Slice
  | .mk _ attrs top => attrs :: AttrGroup.slicesOpt top
termination_by structural g => g
/-- The slices of the frames reached from a pointer to a chain. -/
def AttrGroup.slicesOpt : Option AttrGroup → List Slice
  | none => []
  | some g => g.slices
termination_by structural g => g
end

/-- The heap holds the slice: its length is within its capacity and, unless
the capacity is 0, its backing array is allocated with that many cells. -/
def Heap.holds (h : Heap) (s : Slice) : Prop :=
  s.len ≤ s.cap ∧ (s.cap = 0 ∨ (s.array < h.length ∧ (h.getD s.array []).length = s.cap))

/-- Layout of a chain to which nothing but its own derivation has appended:
the heap holds the slice of every frame, and no outer frame that has
attributes lies in the backing array of the innermost frame. -/
def AttrGroup.ownLayout (h : Heap) (g : AttrGroup) : Prop :=
  h.holds g.attrs ∧
    ∀ f ∈ AttrGroup.slicesOpt g.top,
      h.holds f ∧ (f.len = 0 ∨ g.attrs.cap = 0 ∨ f.array ≠ g.attrs.array)

end helper.sliced

namespace logrus.sliced

/-- The struct `Handler` of package logrus, its chain kept with slices. -/
structure Handler where
  addSource : Bool
  isJSON : Bool
  level : Int
  attrGroup : helper.sliced.AttrGroup
deriving Repr

def NewHandler (options : logrus.HandlerOptions) : Handler where
  addSource := options.AddSource
  isJSON := options.JSONFormatter
  level := options.Level
  attrGroup := helper.sliced.AttrGroup.empty

namespace Handler

def clone (h : Handler) : Handler where
  addSource := h.addSource
  isJSON := h.isJSON
  level := h.level
  attrGroup := h.attrGroup

/-- Method `WithAttrs`; the heap is passed through. -/
def WithAttrs (grow : Nat → Nat → Nat) (heap : helper.sliced.Heap) (h : Handler)
    (attrs : List Attr) : helper.sliced.Heap × Handler :=
  ((helper.sliced.AttrGroup.WithAttrsWith grow heap h.clone.attrGroup attrs).1,
    { h.clone with
      attrGroup := (helper.sliced.AttrGroup.WithAttrsWith grow heap h.clone.attrGroup attrs).2 })

def WithGroup (h : Handler) (name : String) : Handler :=
  { h.clone with attrGroup := h.clone.attrGroup.WithGroup name }

/-- The handler as the heap `heap` shows it. -/
def byValue (heap : helper.sliced.Heap) (h : Handler) : logrus.Handler where
  addSource := h.addSource
  isJSON := h.isJSON
  level := h.level
  attrGroup := helper.sliced.AttrGroup.view heap h.attrGroup

/-- The heap after the call `h.attrGroup.WithAttrs(recordAttrs)` of `Handle`. -/
def heapAfter (grow : Nat → Nat → Nat) (heap : helper.sliced.Heap) (h : Handler)
    (r : Record) : helper.sliced.Heap :=
  (helper.sliced.AttrGroup.WithAttrsWith grow heap h.attrGroup
    (r.attrs.filter (fun a => a.Key ≠ ""))).1

/-- The attribute sequence that `Handle` flattens. -/
def mergedAttrs (grow : Nat → Nat → Nat) (heap : helper.sliced.Heap) (h : Handler)
    (r : Record) : List Attr :=
  helper.sliced.AttrGroup.Attrs (h.heapAfter grow heap r)
    (helper.sliced.AttrGroup.WithAttrsWith grow heap h.attrGroup
      (r.attrs.filter (fun a => a.Key ≠ ""))).2

/-- The flattener call of `Handle`, chosen by `isJSON`. -/
def flatten (grow : Nat → Nat → Nat) (heap : helper.sliced.Heap) (h : Handler)
    (r : Record) : Except Err Fields :=
  if h.isJSON then logrus.attrs2JSONLogrusField (h.mergedAttrs grow heap r)
  else logrus.attrs2TextLogrusField (h.mergedAttrs grow heap r)

/-- The field keys that `Handle` assigns itself for the record `r`. -/
def ownKeys (h : Handler) (r : Record) : List String :=
  (if r.Time ≠ 0 then [logrus.timeKey] else []) ++
    (if h.addSource && r.PC ≠ 0 then [logrus.fileKey, logrus.funcKey] else [])

/-- The statements of `Handle` that add the time and source fields. -/
def addRecordFields (callersFrames : Nat → Frame) (h : Handler) (r : Record)
    (fields : Fields) : Fields :=
  let fields1 :=
    if r.Time ≠ 0 then fields.set logrus.timeKey (.scalar (.time r.Time)) else fields
  if h.addSource && r.PC ≠ 0 then
    (fields1.set logrus.fileKey (.scalar (.str (callersFrames r.PC).fileLine))).set
      logrus.funcKey (.scalar (.str (callersFrames r.PC).Function))
  else fields1

/-- Method `Handle`: the returned error, the sink after the call and the heap
after the call. -/
def Handle (grow : Nat → Nat → Nat) (callersFrames : Nat → Frame)
    (heap : helper.sliced.Heap) (h : Handler) (r : Record) (logr : logrus.Logger) :
    Option Err × logrus.Logger × helper.sliced.Heap :=
  match h.flatten grow heap r with
  | .error err => (some err, logr, h.heapAfter grow heap r)
  | .ok fields =>
    (none, logr ++ [⟨logrus.level2LogrusLevel r.Level, r.Message,
      addRecordFields callersFrames h r fields⟩], h.heapAfter grow heap r)

end Handler

end logrus.sliced

/-- The heap and the logrus handler after one derivation step. -/
def Op.applySliced (grow : Nat → Nat → Nat)
    (p : helper.sliced.Heap × logrus.sliced.Handler) :
    Op → helper.sliced.Heap × logrus.sliced.Handler
  | .withAttrs attrs => p.2.WithAttrs grow p.1 attrs
  | .withGroup name => (p.1, p.2.WithGroup name)

/-- The heap and the logrus handler derived from `p` by the steps `ops`, in
order, nothing else appending in between. -/
def deriveSliced (grow : Nat → Nat → Nat)
    (p : helper.sliced.Heap × logrus.sliced.Handler) (ops : List Op) :
    helper.sliced.Heap × logrus.sliced.Handler :=
  ops.foldl (Op.applySliced grow) p


/-! ## Lemmas: qualified keys and field maps -/

theorem qualify_eq_append (path : List String) (key : String) :
    qualify path key = qualify path "" ++ key := by
  induction path with
  | nil => simp [qualify]
  | cons g gs ih =>
    simp only [qualify]
    rw [ih]
    simp only [String.append_assoc]

theorem qualify_snoc (path : List String) (g key : String) :
    qualify (path ++ [g]) key = qualify path (g ++ "." ++ key) := by
  induction path with
  | nil => simp [qualify]
  | cons g1 gs ih => simp [qualify, ih]

theorem qualify_snoc_pfx (path : List String) (g : String) :
    qualify (path ++ [g]) "" = qualify path g ++ "." := by
  rw [qualify_snoc, qualify_eq_append path (g ++ "." ++ ""), qualify_eq_append path g]
  simp [String.append_assoc]

theorem Fields.has_eq_false_iff (m : Fields) (k : String) :
    m.has k = false ↔ k ∉ m.map Prod.fst := by
  induction m with
  | nil => simp [Fields.has]
  | cons p m ih =>
    simp only [Fields.has, List.any_cons, Bool.or_eq_false_iff, List.map_cons,
      List.mem_cons, not_or] at ih ⊢
    rw [ih]
    constructor
    · rintro ⟨h1, h2⟩
      exact ⟨fun h => by simp [h] at h1, h2⟩
    · rintro ⟨h1, h2⟩
      exact ⟨by simpa using fun h => h1 h.symm, h2⟩

theorem Fields.has_iff (m : Fields) (k : String) :
    m.has k = true ↔ k ∈ m.map Prod.fst := by
  have h := Fields.has_eq_false_iff m k
  cases hk : m.has k
  · simpa [hk] using h
  · simp only [hk, true_iff]
    by_contra hc
    exact absurd (h.2 hc) (by simp [hk])

theorem Fields.set_of_not_has (m : Fields) (k : String) (v : FVal)
    (h : m.has k = false) : m.set k v = m ++ [(k, v)] := by
  simp [Fields.set, h]

theorem Fields.keys_set (m : Fields) (k : String) (v : FVal) :
    (m.set k v).map Prod.fst = if m.has k then m.map Prod.fst else m.map Prod.fst ++ [k] := by
  unfold Fields.set
  split
  · rw [List.map_map]
    apply List.map_congr_left
    intro p _
    by_cases hp : p.1 = k <;> simp [hp]
  · simp

theorem Fields.nodup_keys_set (m : Fields) (k : String) (v : FVal)
    (h : (m.map Prod.fst).Nodup) : ((m.set k v).map Prod.fst).Nodup := by
  rw [Fields.keys_set]
  split
  · exact h
  · rename_i hk
    have hk2 : k ∉ m.map Prod.fst := (Fields.has_eq_false_iff m k).1 (by simpa using hk)
    exact List.Nodup.append h (List.nodup_singleton k) (by simpa using hk2)

theorem Fields.mem_set_of_ne (m : Fields) (k k1 : String) (v v1 : FVal) (h : k ≠ k1) :
    (k, v) ∈ m.set k1 v1 ↔ (k, v) ∈ m := by
  unfold Fields.set
  split
  · simp only [List.mem_map]
    constructor
    · rintro ⟨p, hp, he⟩
      by_cases hpk : p.1 = k1
      · simp [hpk] at he
        exact absurd he.1.symm h
      · simp [hpk] at he
        rw [← he]
        exact hp
    · intro hm
      refine ⟨(k, v), hm, ?_⟩
      simp [h]
  · simp [h]

theorem toFields_append (a b : List (String × Scalar)) :
    toFields (a ++ b) = toFields a ++ toFields b := by
  simp [toFields]

theorem toFields_keys (a : List (String × Scalar)) :
    (toFields a).map Prod.fst = a.map Prod.fst := by
  simp [toFields]

theorem leafKeys_cons (path : List String) (a : Attr) (rest : List Attr) :
    leafKeys path (a :: rest) = (a.leafEntries path).map Prod.fst ++ leafKeys path rest := by
  simp [leafKeys, leafEntries]

theorem leafEntries_append (path : List String) (xs ys : List Attr) :
    leafEntries path (xs ++ ys) = leafEntries path xs ++ leafEntries path ys := by
  induction xs with
  | nil => simp [leafEntries]
  | cons a xs ih => simp [leafEntries, ih]

mutual
theorem attr_nodeKeys_perm (path : List String) (a : Attr) :
    (a.nodeKeys path).Perm ((a.leafEntries path).map Prod.fst ++ a.groupKeys path) := by
  cases a with
  | leaf key v => simp [Attr.nodeKeys, Attr.leafEntries, Attr.groupKeys]
  | group key attrs =>
    simp only [Attr.nodeKeys, Attr.leafEntries, Attr.groupKeys]
    have ih := nodeKeys_perm (path ++ [key]) attrs
    exact (List.Perm.cons _ ih).trans List.perm_middle.symm
termination_by structural a
theorem nodeKeys_perm (path : List String) (attrs : List Attr) :
    (nodeKeys path attrs).Perm (leafKeys path attrs ++ groupKeys path attrs) := by
  cases attrs with
  | nil => simp [nodeKeys, leafKeys, leafEntries, groupKeys]
  | cons a rest =>
    have h1 := attr_nodeKeys_perm path a
    have h2 := nodeKeys_perm path rest
    simp only [nodeKeys, leafKeys_cons, groupKeys]
    refine (List.Perm.append h1 h2).trans ?_
    simp only [List.append_assoc]
    refine List.Perm.append_left _ ?_
    simp only [← List.append_assoc]
    refine List.Perm.append_right _ ?_
    exact List.perm_append_comm
termination_by structural attrs
end

/-! ## Lemmas: the dot-qualified flattener of package logrus -/

mutual
theorem logrus_recTextAttr_ok (path : List String) (a : Attr) (m : Fields)
    (hm : ∀ k ∈ a.nodeKeys path, k ∉ m.map Prod.fst)
    (hnd : (a.nodeKeys path).Nodup) :
    logrus.recTextAttr (qualify path "") a m = .ok (m ++ toFields (a.leafEntries path)) := by
  cases a with
  | leaf key v =>
    have e1 : qualify path "" ++ key = qualify path key := (qualify_eq_append path key).symm
    have h1 : m.has (qualify path key) = false := by
      rw [Fields.has_eq_false_iff]
      exact hm _ (by simp [Attr.nodeKeys])
    simp [logrus.recTextAttr, e1, h1, Fields.set_of_not_has, Attr.leafEntries, toFields]
  | group key attrs =>
    have e1 : qualify path "" ++ key = qualify path key := (qualify_eq_append path key).symm
    have h1 : m.has (qualify path key) = false := by
      rw [Fields.has_eq_false_iff]
      exact hm _ (by simp [Attr.nodeKeys])
    simp only [Attr.nodeKeys, List.nodup_cons, List.mem_cons, forall_eq_or_imp] at hm hnd
    have ih := logrus_recText_ok (path ++ [key]) attrs m hm.2 hnd.2
    rw [qualify_snoc_pfx] at ih
    simp [logrus.recTextAttr, e1, h1, Attr.leafEntries, ih]
termination_by structural a
theorem logrus_recText_ok (path : List String) (attrs : List Attr) (m : Fields)
    (hm : ∀ k ∈ nodeKeys path attrs, k ∉ m.map Prod.fst)
    (hnd : (nodeKeys path attrs).Nodup) :
    logrus.recText (qualify path "") attrs m = .ok (m ++ toFields (leafEntries path attrs)) := by
  cases attrs with
  | nil => simp [logrus.recText, leafEntries, toFields]
  | cons a rest =>
    simp only [nodeKeys, List.nodup_append, List.mem_append] at hm hnd
    have h1 := logrus_recTextAttr_ok path a m (fun k hk => hm k (Or.inl hk)) hnd.1
    have h2 := logrus_recText_ok path rest (m ++ toFields (a.leafEntries path))
      (by
        intro k hk
        simp only [List.map_append, List.mem_append, not_or, toFields_keys]
        refine ⟨hm k (Or.inr hk), fun hk2 => ?_⟩
        have hk3 : k ∈ a.nodeKeys path :=
          (attr_nodeKeys_perm path a).symm.subset (List.mem_append_left _ hk2)
        exact hnd.2.2 hk3 hk)
      hnd.2.1
    simp [logrus.recText, h1, h2, leafEntries, toFields_append]
termination_by structural attrs
end

mutual
theorem logrus_recTextAttr_inv (path : List String) (a : Attr) (m m1 : Fields)
    (h : logrus.recTextAttr (qualify path "") a m = .ok m1) :
    m1 = m ++ toFields (a.leafEntries path) ∧
      (∀ k ∈ (a.leafEntries path).map Prod.fst, k ∉ m.map Prod.fst) ∧
      ((a.leafEntries path).map Prod.fst).Nodup := by
  cases a with
  | leaf key v =>
    have e1 : qualify path "" ++ key = qualify path key := (qualify_eq_append path key).symm
    simp only [logrus.recTextAttr, e1] at h
    split at h
    · cases h
    · rename_i hk
      have hk1 : m.has (qualify path key) = false := by simpa using hk
      rw [Fields.set_of_not_has _ _ _ hk1] at h
      cases h
      refine ⟨by simp [Attr.leafEntries, toFields], ?_, by simp [Attr.leafEntries]⟩
      intro k hk2
      simp only [Attr.leafEntries, List.map_cons, List.map_nil, List.mem_singleton] at hk2
      rw [hk2]
      exact (Fields.has_eq_false_iff _ _).1 hk1
  | group key attrs =>
    have e1 : qualify path "" ++ key = qualify path key := (qualify_eq_append path key).symm
    simp only [logrus.recTextAttr, e1] at h
    split at h
    · cases h
    · rw [← qualify_snoc_pfx] at h
      have ih := logrus_recText_inv (path ++ [key]) attrs m m1 h
      simpa [Attr.leafEntries, leafKeys] using ih
termination_by structural a
theorem logrus_recText_inv (path : List String) (attrs : List Attr) (m m1 : Fields)
    (h : logrus.recText (qualify path "") attrs m = .ok m1) :
    m1 = m ++ toFields (leafEntries path attrs) ∧
      (∀ k ∈ leafKeys path attrs, k ∉ m.map Prod.fst) ∧
      (leafKeys path attrs).Nodup := by
  cases attrs with
  | nil =>
    simp only [logrus.recText] at h
    cases h
    simp [leafEntries, leafKeys, toFields]
  | cons a rest =>
    simp only [logrus.recText] at h
    split at h
    · cases h
    · rename_i m2 h2
      obtain ⟨e2, d2, n2⟩ := logrus_recTextAttr_inv path a m m2 h2
      obtain ⟨e3, d3, n3⟩ := logrus_recText_inv path rest m2 m1 h
      subst e2
      refine ⟨by simp [e3, leafEntries, toFields_append], ?_, ?_⟩
      · intro k hk
        rw [leafKeys_cons, List.mem_append] at hk
        rcases hk with hk | hk
        · exact d2 k hk
        · intro hc
          exact d3 k hk (by simp [hc])
      · rw [leafKeys_cons]
        refine List.Nodup.append n2 n3 ?_
        intro k hk1 hk2
        exact d3 k hk2 (by simp [toFields_keys, hk1])
termination_by structural attrs
end

mutual
theorem logrus_recTextAttr_err (pfx : String) (a : Attr) (m : Fields) (e : Err)
    (h : logrus.recTextAttr pfx a m = .error e) : ∃ k, e = .dupKey k := by
  cases a with
  | leaf key v =>
    simp only [logrus.recTextAttr] at h
    split at h
    · cases h
      exact ⟨_, rfl⟩
    · cases h
  | group key attrs =>
    simp only [logrus.recTextAttr] at h
    split at h
    · cases h
      exact ⟨_, rfl⟩
    · exact logrus_recText_err _ attrs m e h
termination_by structural a
theorem logrus_recText_err (pfx : String) (attrs : List Attr) (m : Fields) (e : Err)
    (h : logrus.recText pfx attrs m = .error e) : ∃ k, e = .dupKey k := by
  cases attrs with
  | nil =>
    simp only [logrus.recText] at h
    cases h
  | cons a rest =>
    simp only [logrus.recText] at h
    split at h
    · rename_i e1 h1
      cases h
      exact logrus_recTextAttr_err pfx a m _ h1
    · rename_i m2 h2
      exact logrus_recText_err pfx rest m2 e h
termination_by structural attrs
end

/-! ## Lemmas: the dot-qualified flattener of package zap -/

mutual
theorem zap_recTextAttr_inv (path : List String) (a : Attr) (s s1 : zap.FlatState)
    (h : zap.recTextAttr (qualify path "") a s = .ok s1) :
    s1.m = s.m ++ toFields (a.leafEntries path) ∧
      (∀ k ∈ a.nodeKeys path, k ∉ s.dupKeyMap) ∧
      (a.nodeKeys path).Nodup ∧
      (∀ k, k ∈ s1.dupKeyMap ↔ k ∈ s.dupKeyMap ∨ k ∈ a.nodeKeys path) := by
  cases a with
  | leaf key v =>
    have e1 : qualify path "" ++ key = qualify path key := (qualify_eq_append path key).symm
    simp only [zap.recTextAttr, e1] at h
    split at h
    · cases h
    · rename_i hk
      have hk1 : qualify path key ∉ s.dupKeyMap := by simpa using hk
      cases h
      refine ⟨by simp [Attr.leafEntries, toFields], ?_, by simp [Attr.nodeKeys], ?_⟩
      · intro k hk2
        simp only [Attr.nodeKeys, List.mem_singleton] at hk2
        rw [hk2]
        exact hk1
      · intro k
        simp only [Attr.nodeKeys, List.mem_cons, List.mem_singleton, List.not_mem_nil, or_false]
        tauto
  | group key attrs =>
    have e1 : qualify path "" ++ key = qualify path key := (qualify_eq_append path key).symm
    simp only [zap.recTextAttr, e1] at h
    split at h
    · cases h
    · rename_i hk
      have hk1 : qualify path key ∉ s.dupKeyMap := by simpa using hk
      rw [← qualify_snoc_pfx] at h
      obtain ⟨hm, hd, hn, hmem⟩ := zap_recText_inv (path ++ [key]) attrs _ s1 h
      simp only [List.mem_cons, not_or] at hd hmem
      refine ⟨by simpa [Attr.leafEntries] using hm, ?_, ?_, ?_⟩
      · intro k hk2
        simp only [Attr.nodeKeys, List.mem_cons] at hk2
        rcases hk2 with hk2 | hk2
        · rw [hk2]
          exact hk1
        · exact (hd k hk2).2
      · simp only [Attr.nodeKeys, List.nodup_cons]
        exact ⟨fun hc => (hd _ hc).1 rfl, hn⟩
      · intro k
        rw [hmem k]
        simp only [Attr.nodeKeys, List.mem_cons]
        tauto
termination_by structural a
theorem zap_recText_inv (path : List String) (attrs : List Attr) (s s1 : zap.FlatState)
    (h : zap.recText (qualify path "") attrs s = .ok s1) :
    s1.m = s.m ++ toFields (leafEntries path attrs) ∧
      (∀ k ∈ nodeKeys path attrs, k ∉ s.dupKeyMap) ∧
      (nodeKeys path attrs).Nodup ∧
      (∀ k, k ∈ s1.dupKeyMap ↔ k ∈ s.dupKeyMap ∨ k ∈ nodeKeys path attrs) := by
  cases attrs with
  | nil =>
    simp only [zap.recText] at h
    cases h
    simp [leafEntries, nodeKeys, toFields]
  | cons a rest =>
    simp only [zap.recText] at h
    split at h
    · cases h
    · rename_i s2 h2
      obtain ⟨m2, d2, n2, c2⟩ := zap_recTextAttr_inv path a s s2 h2
      obtain ⟨m3, d3, n3, c3⟩ := zap_recText_inv path rest s2 s1 h
      refine ⟨by simp [m3, m2, leafEntries, toFields_append], ?_, ?_, ?_⟩
      · intro k hk
        simp only [nodeKeys, List.mem_append] at hk
        rcases hk with hk | hk
        · exact d2 k hk
        · intro hc
          exact d3 k hk ((c2 k).2 (Or.inl hc))
      · simp only [nodeKeys]
        refine List.Nodup.append n2 n3 ?_
        intro k hk1 hk2
        exact d3 k hk2 ((c2 k).2 (Or.inr hk1))
      · intro k
        rw [c3 k, c2 k]
        simp only [nodeKeys, List.mem_append]
        tauto
termination_by structural attrs
end

mutual
theorem zap_recTextAttr_ok (path : List String) (a : Attr) (s : zap.FlatState)
    (hm : ∀ k ∈ a.nodeKeys path, k ∉ s.dupKeyMap)
    (hnd : (a.nodeKeys path).Nodup) :
    ∃ s1, zap.recTextAttr (qualify path "") a s = .ok s1 := by
  cases a with
  | leaf key v =>
    have e1 : qualify path "" ++ key = qualify path key := (qualify_eq_append path key).symm
    have h1 : qualify path key ∉ s.dupKeyMap := hm _ (by simp [Attr.nodeKeys])
    simp [zap.recTextAttr, e1, h1]
  | group key attrs =>
    have e1 : qualify path "" ++ key = qualify path key := (qualify_eq_append path key).symm
    have h1 : qualify path key ∉ s.dupKeyMap := hm _ (by simp [Attr.nodeKeys])
    simp only [Attr.nodeKeys, List.nodup_cons, List.mem_cons, forall_eq_or_imp] at hm hnd
    obtain ⟨s1, ih⟩ := zap_recText_ok (path ++ [key]) attrs
      ⟨s.m, qualify path key :: s.dupKeyMap⟩
      (by
        intro k hk
        simp only [List.mem_cons, not_or]
        exact ⟨fun hc => hnd.1 (hc ▸ hk), hm.2 k hk⟩)
      hnd.2
    rw [qualify_snoc_pfx] at ih
    exact ⟨s1, by simp [zap.recTextAttr, e1, h1, ih]⟩
termination_by structural a
theorem zap_recText_ok (path : List String) (attrs : List Attr) (s : zap.FlatState)
    (hm : ∀ k ∈ nodeKeys path attrs, k ∉ s.dupKeyMap)
    (hnd : (nodeKeys path attrs).Nodup) :
    ∃ s1, zap.recText (qualify path "") attrs s = .ok s1 := by
  cases attrs with
  | nil => exact ⟨s, by simp [zap.recText]⟩
  | cons a rest =>
    simp only [nodeKeys, List.nodup_append, List.mem_append] at hm hnd
    obtain ⟨s2, h2⟩ := zap_recTextAttr_ok path a s (fun k hk => hm k (Or.inl hk)) hnd.1
    obtain ⟨_, _, _, c2⟩ := zap_recTextAttr_inv path a s s2 h2
    obtain ⟨s3, h3⟩ := zap_recText_ok path rest s2
      (by
        intro k hk hc
        rcases (c2 k).1 hc with hc | hc
        · exact hm k (Or.inr hk) hc
        · exact hnd.2.2 hc hk)
      hnd.2.1
    exact ⟨s3, by simp [zap.recText, h2, h3]⟩
termination_by structural attrs
end

mutual
theorem zap_recTextAttr_err (pfx : String) (a : Attr) (s : zap.FlatState) (e : Err)
    (h : zap.recTextAttr pfx a s = .error e) : ∃ k, e = .dupKey k := by
  cases a with
  | leaf key v =>
    simp only [zap.recTextAttr] at h
    split at h
    · cases h
      exact ⟨_, rfl⟩
    · cases h
  | group key attrs =>
    simp only [zap.recTextAttr] at h
    split at h
    · cases h
      exact ⟨_, rfl⟩
    · exact zap_recText_err _ attrs _ e h
termination_by structural a
theorem zap_recText_err (pfx : String) (attrs : List Attr) (s : zap.FlatState) (e : Err)
    (h : zap.recText pfx attrs s = .error e) : ∃ k, e = .dupKey k := by
  cases attrs with
  | nil =>
    simp only [zap.recText] at h
    cases h
  | cons a rest =>
    simp only [zap.recText] at h
    split at h
    · rename_i e1 h1
      cases h
      exact zap_recTextAttr_err pfx a s _ h1
    · rename_i s2 h2
      exact zap_recText_err pfx rest s2 e h
termination_by structural attrs
end

/-! ## Lemmas: the nested-object flatteners -/

theorem childLists_cons (a : Attr) (rest : List Attr) :
    childLists (a :: rest) = a.childLists ++ childLists rest := by
  simp [childLists]

mutual
theorem logrus_recJSONAttr_inv (a : Attr) (m m1 : Fields)
    (h : logrus.recJSONAttr a m = .ok m1) :
    m1.map Prod.fst = m.map Prod.fst ++ [a.Key] ∧ a.Key ∉ m.map Prod.fst ∧
      (∀ l ∈ a.childLists, (l.map Attr.Key).Nodup) := by
  cases a with
  | leaf key v =>
    simp only [logrus.recJSONAttr] at h
    split at h
    · cases h
    · rename_i hk
      have hk1 : m.has key = false := by simpa using hk
      rw [Fields.set_of_not_has _ _ _ hk1] at h
      cases h
      exact ⟨by simp [Attr.Key], (Fields.has_eq_false_iff _ _).1 hk1, by simp [Attr.childLists]⟩
  | group key attrs =>
    simp only [logrus.recJSONAttr] at h
    split at h
    · cases h
    · rename_i hk
      have hk1 : m.has key = false := by simpa using hk
      split at h
      · cases h
      · rename_i inner hin
        rw [Fields.set_of_not_has _ _ _ hk1] at h
        cases h
        obtain ⟨_, _, n1, c1⟩ := logrus_recJSON_inv attrs [] inner hin
        refine ⟨by simp [Attr.Key], (Fields.has_eq_false_iff _ _).1 hk1, ?_⟩
        intro l hl
        simp only [Attr.childLists, List.mem_cons] at hl
        rcases hl with hl | hl
        · rw [hl]
          exact n1
        · exact c1 l hl
termination_by structural a
theorem logrus_recJSON_inv (attrs : List Attr) (m m1 : Fields)
    (h : logrus.recJSON attrs m = .ok m1) :
    m1.map Prod.fst = m.map Prod.fst ++ attrs.map Attr.Key ∧
      (∀ k ∈ attrs.map Attr.Key, k ∉ m.map Prod.fst) ∧
      (attrs.map Attr.Key).Nodup ∧
      (∀ l ∈ childLists attrs, (l.map Attr.Key).Nodup) := by
  cases attrs with
  | nil =>
    simp only [logrus.recJSON] at h
    cases h
    simp [childLists]
  | cons a rest =>
    simp only [logrus.recJSON] at h
    split at h
    · cases h
    · rename_i m2 h2
      obtain ⟨k2, d2, c2⟩ := logrus_recJSONAttr_inv a m m2 h2
      obtain ⟨k3, d3, n3, c3⟩ := logrus_recJSON_inv rest m2 m1 h
      rw [k2] at k3 d3
      refine ⟨by simp [k3], ?_, ?_, ?_⟩
      · intro k hk
        simp only [List.map_cons, List.mem_cons] at hk
        rcases hk with hk | hk
        · rw [hk]
          exact d2
        · intro hc
          exact d3 k hk (by simp [hc])
      · simp only [List.map_cons, List.nodup_cons]
        exact ⟨fun hc => d3 _ hc (by simp), n3⟩
      · intro l hl
        rw [childLists_cons, List.mem_append] at hl
        rcases hl with hl | hl
        · exact c2 l hl
        · exact c3 l hl
termination_by structural attrs
end

mutual
theorem logrus_recJSONAttr_ok (a : Attr) (m : Fields)
    (hk : a.Key ∉ m.map Prod.fst)
    (hc : ∀ l ∈ a.childLists, (l.map Attr.Key).Nodup) :
    ∃ m1, logrus.recJSONAttr a m = .ok m1 := by
  cases a with
  | leaf key v =>
    have h1 : m.has key = false := (Fields.has_eq_false_iff _ _).2 hk
    exact ⟨m.set key (.scalar v), by simp [logrus.recJSONAttr, h1]⟩
  | group key attrs =>
    have h1 : m.has key = false := (Fields.has_eq_false_iff _ _).2 hk
    simp only [Attr.childLists, List.mem_cons, forall_eq_or_imp] at hc
    obtain ⟨inner, hin⟩ := logrus_recJSON_ok attrs [] (by simp) hc.1 hc.2
    exact ⟨m.set key (.obj inner), by simp [logrus.recJSONAttr, h1, hin]⟩
termination_by structural a
theorem logrus_recJSON_ok (attrs : List Attr) (m : Fields)
    (hd : ∀ k ∈ attrs.map Attr.Key, k ∉ m.map Prod.fst)
    (hn : (attrs.map Attr.Key).Nodup)
    (hc : ∀ l ∈ childLists attrs, (l.map Attr.Key).Nodup) :
    ∃ m1, logrus.recJSON attrs m = .ok m1 := by
  cases attrs with
  | nil => exact ⟨m, by simp [logrus.recJSON]⟩
  | cons a rest =>
    simp only [List.map_cons, List.mem_cons, forall_eq_or_imp, List.nodup_cons] at hd hn
    simp only [childLists_cons, List.mem_append] at hc
    obtain ⟨m2, h2⟩ := logrus_recJSONAttr_ok a m hd.1 (fun l hl => hc l (Or.inl hl))
    obtain ⟨k2, _, _⟩ := logrus_recJSONAttr_inv a m m2 h2
    obtain ⟨m3, h3⟩ := logrus_recJSON_ok rest m2
      (by
        intro k hk
        rw [k2, List.mem_append, List.mem_singleton]
        rintro (hc1 | hc1)
        · exact hd.2 k hk hc1
        · exact hn.1 (hc1 ▸ hk))
      hn.2 (fun l hl => hc l (Or.inr hl))
    exact ⟨m3, by simp [logrus.recJSON, h2, h3]⟩
termination_by structural attrs
end

mutual
theorem logrus_recJSONAttr_err (a : Attr) (m : Fields) (e : Err)
    (h : logrus.recJSONAttr a m = .error e) : ∃ k, e = .dupKey k := by
  cases a with
  | leaf key v =>
    simp only [logrus.recJSONAttr] at h
    split at h
    · cases h
      exact ⟨_, rfl⟩
    · cases h
  | group key attrs =>
    simp only [logrus.recJSONAttr] at h
    split at h
    · cases h
      exact ⟨_, rfl⟩
    · split at h
      · rename_i e1 h1
        cases h
        exact logrus_recJSON_err attrs [] _ h1
      · cases h
termination_by structural a
theorem logrus_recJSON_err (attrs : List Attr) (m : Fields) (e : Err)
    (h : logrus.recJSON attrs m = .error e) : ∃ k, e = .dupKey k := by
  cases attrs with
  | nil =>
    simp only [logrus.recJSON] at h
    cases h
  | cons a rest =>
    simp only [logrus.recJSON] at h
    split at h
    · rename_i e1 h1
      cases h
      exact logrus_recJSONAttr_err a m _ h1
    · rename_i m2 h2
      exact logrus_recJSON_err rest m2 e h
termination_by structural attrs
end

mutual
theorem zap_jsonAttr_inv (a : Attr) (s s1 : zap.FlatState)
    (h : zap.jsonAttr a s = .ok s1) :
    (∀ k, k ∈ s1.dupKeyMap ↔ k ∈ s.dupKeyMap ∨ k = a.Key) ∧ a.Key ∉ s.dupKeyMap ∧
      (∀ l ∈ a.childLists, (l.map Attr.Key).Nodup) := by
  cases a with
  | leaf key v =>
    simp only [zap.jsonAttr] at h
    split at h
    · cases h
    · rename_i hk
      have hk1 : key ∉ s.dupKeyMap := by simpa using hk
      cases h
      refine ⟨?_, hk1, by simp [Attr.childLists]⟩
      intro k
      simp only [List.mem_cons, Attr.Key]
      tauto
  | group key attrs =>
    simp only [zap.jsonAttr] at h
    split at h
    · cases h
    · rename_i hk
      have hk1 : key ∉ s.dupKeyMap := by simpa using hk
      split at h
      · cases h
      · rename_i inner hin
        cases h
        obtain ⟨_, _, n1, c1⟩ := zap_jsonLoop_inv attrs _ inner hin
        refine ⟨?_, hk1, ?_⟩
        · intro k
          simp only [List.mem_cons, Attr.Key]
          tauto
        · intro l hl
          simp only [Attr.childLists, List.mem_cons] at hl
          rcases hl with hl | hl
          · rw [hl]
            exact n1
          · exact c1 l hl
termination_by structural a
theorem zap_jsonLoop_inv (attrs : List Attr) (s s1 : zap.FlatState)
    (h : zap.jsonLoop attrs s = .ok s1) :
    (∀ k, k ∈ s1.dupKeyMap ↔ k ∈ s.dupKeyMap ∨ k ∈ attrs.map Attr.Key) ∧
      (∀ k ∈ attrs.map Attr.Key, k ∉ s.dupKeyMap) ∧
      (attrs.map Attr.Key).Nodup ∧
      (∀ l ∈ childLists attrs, (l.map Attr.Key).Nodup) := by
  cases attrs with
  | nil =>
    simp only [zap.jsonLoop] at h
    cases h
    simp [childLists]
  | cons a rest =>
    simp only [zap.jsonLoop] at h
    split at h
    · cases h
    · rename_i s2 h2
      obtain ⟨k2, d2, c2⟩ := zap_jsonAttr_inv a s s2 h2
      obtain ⟨k3, d3, n3, c3⟩ := zap_jsonLoop_inv rest s2 s1 h
      refine ⟨?_, ?_, ?_, ?_⟩
      · intro k
        rw [k3 k, k2 k]
        simp only [List.map_cons, List.mem_cons]
        tauto
      · intro k hk
        simp only [List.map_cons, List.mem_cons] at hk
        rcases hk with hk | hk
        · rw [hk]
          exact d2
        · intro hc
          exact d3 k hk ((k2 k).2 (Or.inl hc))
      · simp only [List.map_cons, List.nodup_cons]
        exact ⟨fun hc => d3 _ hc ((k2 _).2 (Or.inr rfl)), n3⟩
      · intro l hl
        rw [childLists_cons, List.mem_append] at hl
        rcases hl with hl | hl
        · exact c2 l hl
        · exact c3 l hl
termination_by structural attrs
end

mutual
theorem zap_jsonAttr_ok (a : Attr) (s : zap.FlatState)
    (hk : a.Key ∉ s.dupKeyMap)
    (hc : ∀ l ∈ a.childLists, (l.map Attr.Key).Nodup) :
    ∃ s1, zap.jsonAttr a s = .ok s1 := by
  cases a with
  | leaf key v =>
    have h1 : key ∉ s.dupKeyMap := hk
    exact ⟨⟨s.m ++ [(key, .scalar v)], key :: s.dupKeyMap⟩, by simp [zap.jsonAttr, h1]⟩
  | group key attrs =>
    have h1 : key ∉ s.dupKeyMap := hk
    simp only [Attr.childLists, List.mem_cons, forall_eq_or_imp] at hc
    obtain ⟨inner, hin⟩ := zap_jsonLoop_ok attrs ⟨[], []⟩ (by simp) hc.1 hc.2
    exact ⟨⟨s.m ++ [(key, .obj inner.m)], key :: s.dupKeyMap⟩,
      by simp [zap.jsonAttr, h1, hin]⟩
termination_by structural a
theorem zap_jsonLoop_ok (attrs : List Attr) (s : zap.FlatState)
    (hd : ∀ k ∈ attrs.map Attr.Key, k ∉ s.dupKeyMap)
    (hn : (attrs.map Attr.Key).Nodup)
    (hc : ∀ l ∈ childLists attrs, (l.map Attr.Key).Nodup) :
    ∃ s1, zap.jsonLoop attrs s = .ok s1 := by
  cases attrs with
  | nil => exact ⟨s, by simp [zap.jsonLoop]⟩
  | cons a rest =>
    simp only [List.map_cons, List.mem_cons, forall_eq_or_imp, List.nodup_cons] at hd hn
    simp only [childLists_cons, List.mem_append] at hc
    obtain ⟨s2, h2⟩ := zap_jsonAttr_ok a s hd.1 (fun l hl => hc l (Or.inl hl))
    obtain ⟨k2, _, _⟩ := zap_jsonAttr_inv a s s2 h2
    obtain ⟨s3, h3⟩ := zap_jsonLoop_ok rest s2
      (by
        intro k hk hc1
        rcases (k2 k).1 hc1 with hc1 | hc1
        · exact hd.2 k hk hc1
        · exact hn.1 (hc1 ▸ hk))
      hn.2 (fun l hl => hc l (Or.inr hl))
    exact ⟨s3, by simp [zap.jsonLoop, h2, h3]⟩
termination_by structural attrs
end

mutual
theorem zap_jsonAttr_err (a : Attr) (s : zap.FlatState) (e : Err)
    (h : zap.jsonAttr a s = .error e) : ∃ k, e = .dupKey k := by
  cases a with
  | leaf key v =>
    simp only [zap.jsonAttr] at h
    split at h
    · cases h
      exact ⟨_, rfl⟩
    · cases h
  | group key attrs =>
    simp only [zap.jsonAttr] at h
    split at h
    · cases h
      exact ⟨_, rfl⟩
    · split at h
      · rename_i e1 h1
        cases h
        exact zap_jsonLoop_err attrs _ _ h1
      · cases h
termination_by structural a
theorem zap_jsonLoop_err (attrs : List Attr) (s : zap.FlatState) (e : Err)
    (h : zap.jsonLoop attrs s = .error e) : ∃ k, e = .dupKey k := by
  cases attrs with
  | nil =>
    simp only [zap.jsonLoop] at h
    cases h
  | cons a rest =>
    simp only [zap.jsonLoop] at h
    split at h
    · rename_i e1 h1
      cases h
      exact zap_jsonAttr_err a s _ h1
    · rename_i s2 h2
      exact zap_jsonLoop_err rest s2 e h
termination_by structural attrs
end

/-! ## Lemmas: resolving a chain -/

mutual
theorem helper.AttrGroup.attrsStep_eq_foldl (g : helper.AttrGroup) (rt : List Attr) :
    helper.AttrGroup.attrsStep g rt = g.frames.foldl stepFrame rt := by
  cases g with
  | mk name attrs top =>
    simp only [helper.AttrGroup.attrsStep, helper.AttrGroup.frames, List.foldl_cons, stepFrame]
    by_cases hn : name = ""
    · simp only [hn, ne_eq, not_true_eq_false, if_false]
      exact helper.AttrGroup.attrsLoop_eq_foldl top _
    · simp only [hn, ne_eq, not_false_eq_true, if_true]
      exact helper.AttrGroup.attrsLoop_eq_foldl top _
termination_by structural g
theorem helper.AttrGroup.attrsLoop_eq_foldl (g : Option helper.AttrGroup) (rt : List Attr) :
    helper.AttrGroup.attrsLoop g rt = (helper.AttrGroup.framesOpt g).foldl stepFrame rt := by
  cases g with
  | none => simp [helper.AttrGroup.attrsLoop, helper.AttrGroup.framesOpt]
  | some head =>
    simp only [helper.AttrGroup.attrsLoop, helper.AttrGroup.framesOpt]
    exact helper.AttrGroup.attrsStep_eq_foldl head rt
termination_by structural g
end

theorem helper.AttrGroup.Attrs_eq_foldl (g : helper.AttrGroup) :
    g.Attrs = g.frames.foldl stepFrame [] := by
  simp [helper.AttrGroup.Attrs, helper.AttrGroup.attrsLoop, helper.AttrGroup.attrsStep_eq_foldl]

theorem helper.AttrGroup.frames_eq (g : helper.AttrGroup) :
    g.frames = (g.name, g.attrs) :: helper.AttrGroup.framesOpt g.top := by
  cases g with
  | mk name attrs top =>
    simp [helper.AttrGroup.frames, helper.AttrGroup.name, helper.AttrGroup.attrs,
      helper.AttrGroup.top]

theorem helper.AttrGroup.clone_eq (g : helper.AttrGroup) : g.clone = g := by
  cases g with
  | mk name attrs top =>
    simp [helper.AttrGroup.clone, helper.AttrGroup.name, helper.AttrGroup.attrs,
      helper.AttrGroup.top]

theorem helper.AttrGroup.frames_WithAttrs (g : helper.AttrGroup) (attrs : List Attr) :
    (g.WithAttrs attrs).frames =
      (g.name, g.attrs ++ attrs) :: helper.AttrGroup.framesOpt g.top := by
  unfold helper.AttrGroup.WithAttrs
  split
  · rename_i h
    rw [helper.AttrGroup.clone_eq, helper.AttrGroup.frames_eq g]
    simp [List.length_eq_zero.1 h]
  · simp [helper.AttrGroup.frames]

theorem helper.AttrGroup.frames_WithGroup (g : helper.AttrGroup) (name : String)
    (h : name ≠ "") : (g.WithGroup name).frames = (name, []) :: g.frames := by
  simp [helper.AttrGroup.WithGroup, h, helper.AttrGroup.frames, helper.AttrGroup.framesOpt]

theorem leafEntries_of_isEmptyGroup (path : List String) (a : Attr)
    (h : a.isEmptyGroup = true) : a.leafEntries path = [] := by
  cases a with
  | leaf key v => simp [Attr.isEmptyGroup] at h
  | group key attrs =>
    cases attrs with
    | nil => simp [Attr.leafEntries, leafEntries]
    | cons b bs => simp [Attr.isEmptyGroup] at h

theorem leafEntries_filter_nonEmptyGroup (path : List String) (xs : List Attr) :
    leafEntries path (xs.filter (fun a => !a.isEmptyGroup)) = leafEntries path xs := by
  induction xs with
  | nil => simp
  | cons a xs ih =>
    by_cases h : a.isEmptyGroup = true
    · simp [List.filter_cons, h, leafEntries, ih, leafEntries_of_isEmptyGroup path a h]
    · simp [List.filter_cons, h, leafEntries, ih]

theorem leafEntries_slogGroup (path : List String) (name : String) (xs : List Attr) :
    (slog.Group name xs).leafEntries path = leafEntries (path ++ [name]) xs := by
  simp [slog.Group, Attr.leafEntries, leafEntries_filter_nonEmptyGroup]

theorem helper.AttrGroup.keepKeyed_eq_self (xs : List Attr) (h : ∀ a ∈ xs, a.Key ≠ "") :
    helper.AttrGroup.keepKeyed xs = xs := by
  unfold helper.AttrGroup.keepKeyed
  rw [List.filter_eq_self]
  intro a ha
  simpa using h a ha

theorem leafEntries_foldl_stepFrame (fs : List (String × List Attr)) :
    ∀ rt : List Attr, (∀ f ∈ fs, ∀ a ∈ f.2, a.Key ≠ "") → (∀ a ∈ rt, a.Key ≠ "") →
      (leafEntries [] (fs.foldl stepFrame rt)).Perm
        (frameEntries fs ++ leafEntries (framePath fs) rt) := by
  induction fs with
  | nil =>
    intro rt _ _
    simp [frameEntries, framePath]
  | cons f fs ih =>
    intro rt hfs hrt
    have hf : ∀ a ∈ f.2, a.Key ≠ "" := hfs f (List.mem_cons_self _ _)
    have hfs1 : ∀ f1 ∈ fs, ∀ a ∈ f1.2, a.Key ≠ "" :=
      fun f1 h1 => hfs f1 (List.mem_cons_of_mem _ h1)
    rw [List.foldl_cons]
    by_cases hn : f.1 = ""
    · have hstep : stepFrame rt f = rt ++ f.2 := by simp [stepFrame, hn]
      have hkeys : ∀ a ∈ stepFrame rt f, a.Key ≠ "" := by
        intro a ha
        rw [hstep, List.mem_append] at ha
        rcases ha with ha | ha
        · exact hrt a ha
        · exact hf a ha
      refine (ih _ hfs1 hkeys).trans ?_
      rw [hstep, leafEntries_append]
      simp only [frameEntries, framePath, hn, ne_eq, not_true_eq_false, if_false,
        List.append_assoc]
      exact List.Perm.append_left _ List.perm_append_comm
    · have hstep : stepFrame rt f = [slog.Group f.1 (f.2 ++ rt)] := by
        simp [stepFrame, hn, helper.AttrGroup.keepKeyed_eq_self _ hf,
          helper.AttrGroup.keepKeyed_eq_self _ hrt]
      have hkeys : ∀ a ∈ stepFrame rt f, a.Key ≠ "" := by
        intro a ha
        rw [hstep, List.mem_singleton] at ha
        rw [ha]
        simpa [slog.Group, Attr.Key] using hn
      refine (ih _ hfs1 hkeys).trans ?_
      rw [hstep]
      simp only [leafEntries, leafEntries_slogGroup, leafEntries_append, frameEntries,
        framePath, hn, ne_eq, not_false_eq_true, if_true, List.append_nil, List.append_assoc]
      exact List.Perm.refl _

theorem leafEntries_length_of_leaves (path : List String) (xs : List Attr)
    (h : ∀ a ∈ xs, a.isGroup = false) : (leafEntries path xs).length = xs.length := by
  induction xs with
  | nil => simp [leafEntries]
  | cons a xs ih =>
    have ha := h a (List.mem_cons_self _ _)
    have ih1 := ih (fun b hb => h b (List.mem_cons_of_mem _ hb))
    cases a with
    | leaf key v => simp [leafEntries, Attr.leafEntries, ih1]
    | group key attrs => simp [Attr.isGroup] at ha

theorem expectedEntries_length (ops : List Op) :
    ∀ (path : List String) (recAttrs : List Attr), (∀ op ∈ ops, op.plain) →
      (∀ a ∈ recAttrs, a.isGroup = false) →
      (expectedEntries path ops recAttrs).length = Op.attrCount ops + recAttrs.length := by
  induction ops with
  | nil =>
    intro path recAttrs _ hrec
    simp [expectedEntries, Op.attrCount, leafEntries_length_of_leaves path recAttrs hrec]
  | cons op ops ih =>
    intro path recAttrs hops hrec
    have ih1 := fun p => ih p recAttrs (fun o ho => hops o (List.mem_cons_of_mem _ ho)) hrec
    have hop := hops op (List.mem_cons_self _ _)
    cases op with
    | withAttrs attrs =>
      have hl := leafEntries_length_of_leaves path attrs (fun a ha => (hop a ha).1)
      simp [expectedEntries, Op.attrCount, ih1, hl, Nat.add_assoc]
    | withGroup name => simp [expectedEntries, Op.attrCount, ih1]

theorem deriveLogrus_flags (ops : List Op) :
    ∀ h : logrus.Handler, (deriveLogrus h ops).isJSON = h.isJSON ∧
      (deriveLogrus h ops).addSource = h.addSource := by
  induction ops with
  | nil =>
    intro h
    simp [deriveLogrus]
  | cons op ops ih =>
    intro h
    have ih1 := ih (op.applyLogrus h)
    simp only [deriveLogrus, List.foldl_cons] at ih1 ⊢
    rw [ih1.1, ih1.2]
    cases op <;>
      simp [Op.applyLogrus, logrus.Handler.WithAttrs, logrus.Handler.WithGroup,
        logrus.Handler.clone]

theorem deriveLogrus_frames (ops : List Op) :
    ∀ (h : logrus.Handler) (recAttrs : List Attr), (∀ op ∈ ops, op.plain) →
      (∀ a ∈ recAttrs, a.Key ≠ "") →
      (∀ f ∈ h.attrGroup.frames, ∀ a ∈ f.2, a.Key ≠ "") →
      (∀ f ∈ ((deriveLogrus h ops).attrGroup.WithAttrs recAttrs).frames,
        ∀ a ∈ f.2, a.Key ≠ "") ∧
      frameEntries ((deriveLogrus h ops).attrGroup.WithAttrs recAttrs).frames =
        frameEntries h.attrGroup.frames ++
          expectedEntries (framePath h.attrGroup.frames) ops recAttrs := by
  induction ops with
  | nil =>
    intro h recAttrs _ hrec hh
    rw [helper.AttrGroup.frames_eq h.attrGroup] at hh
    simp only [List.mem_cons, forall_eq_or_imp] at hh
    simp only [deriveLogrus, List.foldl_nil, helper.AttrGroup.frames_WithAttrs, expectedEntries]
    constructor
    · simp only [List.mem_cons, forall_eq_or_imp, List.mem_append]
      refine ⟨?_, hh.2⟩
      rintro a (ha | ha)
      · exact hh.1 a ha
      · exact hrec a ha
    · rw [helper.AttrGroup.frames_eq h.attrGroup]
      simp [frameEntries, framePath, leafEntries_append]
  | cons op ops ih =>
    intro h recAttrs hops hrec hh
    have hop := hops op (List.mem_cons_self _ _)
    have hops1 : ∀ o ∈ ops, o.plain := fun o ho => hops o (List.mem_cons_of_mem _ ho)
    have hh0 := hh
    rw [helper.AttrGroup.frames_eq h.attrGroup] at hh
    simp only [List.mem_cons, forall_eq_or_imp] at hh
    simp only [deriveLogrus, List.foldl_cons]
    cases op with
    | withAttrs attrs =>
      have hfr : (Op.applyLogrus h (.withAttrs attrs)).attrGroup.frames =
          (h.attrGroup.name, h.attrGroup.attrs ++ attrs) ::
            helper.AttrGroup.framesOpt h.attrGroup.top := by
        simp [Op.applyLogrus, logrus.Handler.WithAttrs, logrus.Handler.clone,
          helper.AttrGroup.frames_WithAttrs]
      have hk : ∀ f ∈ (Op.applyLogrus h (.withAttrs attrs)).attrGroup.frames,
          ∀ a ∈ f.2, a.Key ≠ "" := by
        rw [hfr]
        simp only [List.mem_cons, forall_eq_or_imp, List.mem_append]
        refine ⟨?_, hh.2⟩
        rintro a (ha | ha)
        · exact hh.1 a ha
        · exact (hop a ha).2
      obtain ⟨ih1, ih2⟩ := ih (Op.applyLogrus h (.withAttrs attrs)) recAttrs hops1 hrec hk
      refine ⟨ih1, ?_⟩
      simp only [deriveLogrus] at ih2
      rw [ih2, hfr, helper.AttrGroup.frames_eq h.attrGroup]
      simp [frameEntries, framePath, leafEntries_append, expectedEntries]
    | withGroup name =>
      have hname : name ≠ "" := hop
      have hfr : (Op.applyLogrus h (.withGroup name)).attrGroup.frames =
          (name, []) :: h.attrGroup.frames := by
        simp [Op.applyLogrus, logrus.Handler.WithGroup, logrus.Handler.clone,
          helper.AttrGroup.frames_WithGroup _ _ hname]
      have hk : ∀ f ∈ (Op.applyLogrus h (.withGroup name)).attrGroup.frames,
          ∀ a ∈ f.2, a.Key ≠ "" := by
        rw [hfr]
        simp only [List.mem_cons, forall_eq_or_imp]
        exact ⟨by simp, hh0⟩
      obtain ⟨ih1, ih2⟩ := ih (Op.applyLogrus h (.withGroup name)) recAttrs hops1 hrec hk
      refine ⟨ih1, ?_⟩
      simp only [deriveLogrus] at ih2
      rw [ih2, hfr]
      simp [frameEntries, framePath, hname, leafEntries, expectedEntries]

/-! ## Lemmas: outcomes of the flatteners -/

theorem logrus_text_error_is_dupKey (attrs : List Attr) (e : Err)
    (h : logrus.attrs2TextLogrusField attrs = .error e) : ∃ k, e = .dupKey k :=
  logrus_recText_err "" attrs [] e h

theorem logrus_text_ok_inv (attrs : List Attr) (m : Fields)
    (h : logrus.attrs2TextLogrusField attrs = .ok m) :
    m = toFields (leafEntries [] attrs) ∧ (leafKeys [] attrs).Nodup := by
  obtain ⟨h1, _, h3⟩ := logrus_recText_inv [] attrs [] m h
  exact ⟨by simpa using h1, h3⟩

theorem zap_text_error_is_dupKey (attrs : List Attr) (e : Err)
    (h : zap.attrs2TextLogrusField attrs = .error e) : ∃ k, e = .dupKey k := by
  unfold zap.attrs2TextLogrusField at h
  split at h
  · rename_i e1 h1
    cases h
    exact zap_recText_err "" attrs _ _ h1
  · cases h

theorem zap_text_ok_inv (attrs : List Attr) (m : Fields)
    (h : zap.attrs2TextLogrusField attrs = .ok m) :
    m = toFields (leafEntries [] attrs) ∧ (nodeKeys [] attrs).Nodup := by
  unfold zap.attrs2TextLogrusField at h
  split at h
  · cases h
  · rename_i s hs
    cases h
    obtain ⟨h1, _, h3, _⟩ := zap_recText_inv [] attrs _ s hs
    exact ⟨by simpa using h1, h3⟩

theorem logrus_json_ok_iff (attrs : List Attr) :
    (∃ m, logrus.attrs2JSONLogrusField attrs = .ok m) ↔
      ∀ l ∈ attrLists attrs, (l.map Attr.Key).Nodup := by
  constructor
  · rintro ⟨m, hm⟩ l hl
    obtain ⟨_, _, n1, c1⟩ := logrus_recJSON_inv attrs [] m hm
    simp only [attrLists, List.mem_cons] at hl
    rcases hl with hl | hl
    · rw [hl]
      exact n1
    · exact c1 l hl
  · intro h
    simp only [attrLists, List.mem_cons, forall_eq_or_imp] at h
    exact logrus_recJSON_ok attrs [] (by simp) h.1 h.2

theorem logrus_json_error_is_dupKey (attrs : List Attr) (e : Err)
    (h : logrus.attrs2JSONLogrusField attrs = .error e) : ∃ k, e = .dupKey k :=
  logrus_recJSON_err attrs [] e h

theorem zap_json_ok_iff (attrs : List Attr) :
    (∃ m, zap.attrs2JSONLogrusField attrs = .ok m) ↔
      ∀ l ∈ attrLists attrs, (l.map Attr.Key).Nodup := by
  constructor
  · rintro ⟨m, hm⟩ l hl
    unfold zap.attrs2JSONLogrusField at hm
    split at hm
    · cases hm
    · rename_i s hs
      obtain ⟨_, _, n1, c1⟩ := zap_jsonLoop_inv attrs _ s hs
      simp only [attrLists, List.mem_cons] at hl
      rcases hl with hl | hl
      · rw [hl]
        exact n1
      · exact c1 l hl
  · intro h
    simp only [attrLists, List.mem_cons, forall_eq_or_imp] at h
    obtain ⟨s, hs⟩ := zap_jsonLoop_ok attrs ⟨[], []⟩ (by simp) h.1 h.2
    exact ⟨s.m, by simp [zap.attrs2JSONLogrusField, hs]⟩

theorem zap_json_error_is_dupKey (attrs : List Attr) (e : Err)
    (h : zap.attrs2JSONLogrusField attrs = .error e) : ∃ k, e = .dupKey k := by
  unfold zap.attrs2JSONLogrusField at h
  split at h
  · rename_i e1 h1
    cases h
    exact zap_jsonLoop_err attrs _ _ h1
  · cases h

theorem error_iff_of_ok_iff {α : Type} (res : Except Err α) (P : Prop)
    (hok : (∃ m, res = .ok m) ↔ ¬ P) (herr : ∀ e, res = .error e → ∃ k, e = .dupKey k) :
    (∃ k, res = .error (.dupKey k)) ↔ P := by
  cases res with
  | error e =>
    obtain ⟨k, hk⟩ := herr e rfl
    constructor
    · intro _
      by_contra hc
      obtain ⟨m, hm⟩ := hok.2 hc
      cases hm
    · intro _
      exact ⟨k, by rw [hk]⟩
  | ok m =>
    constructor
    · rintro ⟨k, hk⟩
      cases hk
    · intro hp
      exact absurd hp (hok.1 ⟨m, rfl⟩)

theorem exists_sameKeyTwice_iff (attrs : List Attr) :
    (¬ ∃ l ∈ attrLists attrs, sameKeyTwice l) ↔
      ∀ l ∈ attrLists attrs, (l.map Attr.Key).Nodup := by
  simp only [sameKeyTwice, not_exists, not_and, not_not]

/-! ## Lemmas: the fields added by Handle -/

theorem logrus_mem_addRecordFields (cf : Nat → Frame) (h : logrus.Handler) (r : Record)
    (m : Fields) (k : String) (v : FVal) (hk : k ∉ h.ownKeys r) :
    (k, v) ∈ logrus.Handler.addRecordFields cf h r m ↔ (k, v) ∈ m := by
  unfold logrus.Handler.addRecordFields
  unfold logrus.Handler.ownKeys at hk
  by_cases ht : r.Time = 0 <;> by_cases hs : (h.addSource && r.PC ≠ 0) = true
  · simp only [if_neg (not_not_intro ht), if_pos hs]
    simp only [if_neg (not_not_intro ht), if_pos hs] at hk
    simp only [List.nil_append, List.mem_cons, List.not_mem_nil, or_false, not_or] at hk
    rw [Fields.mem_set_of_ne _ _ _ _ _ hk.2, Fields.mem_set_of_ne _ _ _ _ _ hk.1]
  · simp only [if_neg (not_not_intro ht), if_neg hs]
  · simp only [if_pos ht, if_pos hs]
    simp only [if_pos ht, if_pos hs] at hk
    simp only [List.singleton_append, List.mem_cons, List.not_mem_nil, or_false,
      not_or] at hk
    rw [Fields.mem_set_of_ne _ _ _ _ _ hk.2.2, Fields.mem_set_of_ne _ _ _ _ _ hk.2.1,
      Fields.mem_set_of_ne _ _ _ _ _ hk.1]
  · simp only [if_pos ht, if_neg hs]
    simp only [if_pos ht, if_neg hs] at hk
    simp only [List.append_nil, List.mem_singleton] at hk
    rw [Fields.mem_set_of_ne _ _ _ _ _ hk]

theorem logrus_nodup_addRecordFields (cf : Nat → Frame) (h : logrus.Handler) (r : Record)
    (m : Fields) (hm : (m.map Prod.fst).Nodup) :
    ((logrus.Handler.addRecordFields cf h r m).map Prod.fst).Nodup := by
  unfold logrus.Handler.addRecordFields
  by_cases ht : r.Time = 0 <;> by_cases hs : (h.addSource && r.PC ≠ 0) = true
  · simp only [if_neg (not_not_intro ht), if_pos hs]
    exact Fields.nodup_keys_set _ _ _ (Fields.nodup_keys_set _ _ _ hm)
  · simp only [if_neg (not_not_intro ht), if_neg hs]
    exact hm
  · simp only [if_pos ht, if_pos hs]
    exact Fields.nodup_keys_set _ _ _ (Fields.nodup_keys_set _ _ _
      (Fields.nodup_keys_set _ _ _ hm))
  · simp only [if_pos ht, if_neg hs]
    exact Fields.nodup_keys_set _ _ _ hm

theorem logrus_flatten_chain_perm (options : logrus.HandlerOptions) (ops : List Op)
    (r : Record) (m : Fields)
    (hjson : options.JSONFormatter = false)
    (hops : ∀ op ∈ ops, op.plain)
    (hrec : ∀ a ∈ r.attrs, a.isGroup = false ∧ a.Key ≠ "")
    (hok : (deriveLogrus (logrus.NewHandler options) ops).flatten r = .ok m) :
    m.Perm (toFields (expectedEntries [] ops r.attrs)) ∧ (m.map Prod.fst).Nodup := by
  have hkeys : ∀ a ∈ r.attrs, a.Key ≠ "" := fun a ha => (hrec a ha).2
  have hfilter : r.attrs.filter (fun a => a.Key ≠ "") = r.attrs := by
    rw [List.filter_eq_self]
    intro a ha
    simpa using hkeys a ha
  have hflag : (deriveLogrus (logrus.NewHandler options) ops).isJSON = false := by
    rw [(deriveLogrus_flags ops (logrus.NewHandler options)).1]
    exact hjson
  have hfr := deriveLogrus_frames ops (logrus.NewHandler options) r.attrs hops hkeys
    (by simp [logrus.NewHandler, helper.AttrGroup.empty, helper.AttrGroup.frames,
      helper.AttrGroup.framesOpt])
  have hroot : (logrus.NewHandler options).attrGroup.frames = [("", [])] := by
    simp [logrus.NewHandler, helper.AttrGroup.empty, helper.AttrGroup.frames,
      helper.AttrGroup.framesOpt]
  rw [hroot] at hfr
  simp only [frameEntries, framePath, leafEntries, ne_eq, not_true_eq_false, if_false,
    List.append_nil, List.nil_append] at hfr
  unfold logrus.Handler.flatten at hok
  rw [hflag] at hok
  simp only [Bool.false_eq_true, if_false,
    logrus.Handler.mergedAttrs, hfilter, helper.AttrGroup.Attrs_eq_foldl] at hok
  obtain ⟨hm, hnd⟩ := logrus_text_ok_inv _ _ hok
  have hperm := leafEntries_foldl_stepFrame _ [] hfr.1 (by simp)
  simp only [leafEntries, List.append_nil] at hperm
  rw [hfr.2] at hperm
  constructor
  · rw [hm]
    exact hperm.map _
  · rw [hm, toFields_keys]
    exact hnd

/-! ## Claims -/

/-- C1: for every logrus handler and every zap handler, with `t` the threshold
held by the gate, and every level `l`, `Enabled l` returns true if and only if
`t ≥ l`. -/
theorem enabled_iff_threshold_ge (h : logrus.Handler) (z : zap.Handler) (l : Int) :
    (h.Enabled l = true ↔ h.level ≥ l) ∧ (z.Enabled l = true ↔ z.level ≥ l) := by
  simp [logrus.Handler.Enabled, zap.Handler.Enabled]

/-- C2: evaluation of `Enabled` at the gate threshold info: the handlers of
both packages are enabled for the level info and not enabled for the more
severe levels warn, error, panic and fatal, while they are enabled for the
less severe levels debug and trace. -/
theorem enabled_at_info_rejects_more_severe :
    logger.LevelInfo ≤ logger.LevelWarn ∧
      (logrus.NewHandler ⟨false, false, logger.LevelInfo⟩).Enabled logger.LevelInfo = true ∧
      (logrus.NewHandler ⟨false, false, logger.LevelInfo⟩).Enabled logger.LevelWarn = false ∧
      (logrus.NewHandler ⟨false, false, logger.LevelInfo⟩).Enabled logger.LevelError = false ∧
      (logrus.NewHandler ⟨false, false, logger.LevelInfo⟩).Enabled logger.LevelPanic = false ∧
      (logrus.NewHandler ⟨false, false, logger.LevelInfo⟩).Enabled logger.LevelFatal = false ∧
      (logrus.NewHandler ⟨false, false, logger.LevelInfo⟩).Enabled logger.LevelDebug = true ∧
      (logrus.NewHandler ⟨false, false, logger.LevelInfo⟩).Enabled logger.LevelTrace = true ∧
      (zap.NewHandler ⟨false, false, logger.LevelInfo, false⟩).Enabled logger.LevelInfo = true ∧
      (zap.NewHandler ⟨false, false, logger.LevelInfo, false⟩).Enabled logger.LevelWarn = false := by
  decide

/-- C3: when no two attributes of an attribute tree, groups included, have the
same qualified key, `attrs2TextLogrusField` of package logrus succeeds; the map
it returns holds exactly one entry per non-group attribute, keyed by the keys
of the enclosing groups and the attribute's key joined with dots and carrying
the attribute's value; its keys are pairwise distinct and no entry is keyed by
the qualified key of a group. -/
theorem logrus_text_flatten_distinct_keys (attrs : List Attr)
    (h : (nodeKeys [] attrs).Nodup) :
    ∃ m, logrus.attrs2TextLogrusField attrs = .ok m ∧
      m.Perm (toFields (leafEntries [] attrs)) ∧
      (m.map Prod.fst).Nodup ∧
      ∀ g ∈ groupKeys [] attrs, m.has g = false := by
  have hperm := nodeKeys_perm [] attrs
  have hnd : (leafKeys [] attrs ++ groupKeys [] attrs).Nodup := hperm.nodup_iff.1 h
  rw [List.nodup_append] at hnd
  refine ⟨toFields (leafEntries [] attrs), ?_, List.Perm.refl _, ?_, ?_⟩
  · have hok := logrus_recText_ok [] attrs [] (by simp) h
    simpa [logrus.attrs2TextLogrusField] using hok
  · rw [toFields_keys]
    exact hnd.1
  · intro g hg
    rw [Fields.has_eq_false_iff, toFields_keys]
    exact fun hc => hnd.2.2 hc hg

/-- Witness of C3: the tree `[a=1, g [b=2, h [c=3], d=4], e=5]` has pairwise
distinct qualified keys and flattens to `a:1, g.b:2, g.h.c:3, g.d:4, e:5`. -/
theorem logrus_text_flatten_distinct_keys_witness :
    (nodeKeys [] [.leaf "a" (.int 1),
        .group "g" [.leaf "b" (.int 2), .group "h" [.leaf "c" (.int 3)], .leaf "d" (.int 4)],
        .leaf "e" (.int 5)]).Nodup ∧
      (∃ m, logrus.attrs2TextLogrusField [.leaf "a" (.int 1),
          .group "g" [.leaf "b" (.int 2), .group "h" [.leaf "c" (.int 3)], .leaf "d" (.int 4)],
          .leaf "e" (.int 5)] = .ok m ∧
        m.Perm (toFields (leafEntries [] [.leaf "a" (.int 1),
          .group "g" [.leaf "b" (.int 2), .group "h" [.leaf "c" (.int 3)], .leaf "d" (.int 4)],
          .leaf "e" (.int 5)])) ∧
        (m.map Prod.fst).Nodup ∧
        ∀ g ∈ groupKeys [] [.leaf "a" (.int 1),
          .group "g" [.leaf "b" (.int 2), .group "h" [.leaf "c" (.int 3)], .leaf "d" (.int 4)],
          .leaf "e" (.int 5)], m.has g = false) ∧
      toFields (leafEntries [] [.leaf "a" (.int 1),
          .group "g" [.leaf "b" (.int 2), .group "h" [.leaf "c" (.int 3)], .leaf "d" (.int 4)],
          .leaf "e" (.int 5)]) =
        [("a", .scalar (.int 1)), ("g.b", .scalar (.int 2)), ("g.h.c", .scalar (.int 3)),
          ("g.d", .scalar (.int 4)), ("e", .scalar (.int 5))] ∧
      groupKeys [] [.leaf "a" (.int 1),
          .group "g" [.leaf "b" (.int 2), .group "h" [.leaf "c" (.int 3)], .leaf "d" (.int 4)],
          .leaf "e" (.int 5)] = ["g", "g.h"] :=
  ⟨by decide, logrus_text_flatten_distinct_keys _ (by decide), by rfl, by decide⟩

/-- C5: when two non-group attributes of an attribute tree have the same
qualified key, at whatever nesting levels, `attrs2TextLogrusField` of package
logrus and `attrs2TextLogrusField` of package zap both return a duplicate-key
error. -/
theorem text_flatten_duplicate_key_error (attrs : List Attr)
    (h : ¬ (leafKeys [] attrs).Nodup) :
    (∃ k, logrus.attrs2TextLogrusField attrs = .error (.dupKey k)) ∧
      (∃ k, zap.attrs2TextLogrusField attrs = .error (.dupKey k)) := by
  constructor
  · cases hres : logrus.attrs2TextLogrusField attrs with
    | error e =>
      obtain ⟨k, hk⟩ := logrus_text_error_is_dupKey attrs e hres
      exact ⟨k, by rw [hk]⟩
    | ok m => exact absurd (logrus_text_ok_inv attrs m hres).2 h
  · cases hres : zap.attrs2TextLogrusField attrs with
    | error e =>
      obtain ⟨k, hk⟩ := zap_text_error_is_dupKey attrs e hres
      exact ⟨k, by rw [hk]⟩
    | ok m =>
      have hnd := (zap_text_ok_inv attrs m hres).2
      have hnd2 : (leafKeys [] attrs ++ groupKeys [] attrs).Nodup :=
        (nodeKeys_perm [] attrs).nodup_iff.1 hnd
      exact absurd (List.nodup_append.1 hnd2).1 h

/-- Witness of C5: a top-level attribute keyed `g.b` and an attribute `b`
inside the group `g` have the same qualified key, and both flatteners return
the duplicate-key error raised at `b`. -/
theorem text_flatten_duplicate_key_error_witness :
    ¬ (leafKeys [] [.leaf "g.b" (.int 1), .group "g" [.leaf "b" (.int 2)]]).Nodup ∧
      ((∃ k, logrus.attrs2TextLogrusField
          [.leaf "g.b" (.int 1), .group "g" [.leaf "b" (.int 2)]] = .error (.dupKey k)) ∧
        (∃ k, zap.attrs2TextLogrusField
          [.leaf "g.b" (.int 1), .group "g" [.leaf "b" (.int 2)]] = .error (.dupKey k))) ∧
      logrus.attrs2TextLogrusField
        [.leaf "g.b" (.int 1), .group "g" [.leaf "b" (.int 2)]] = .error (.dupKey "b") ∧
      zap.attrs2TextLogrusField
        [.leaf "g.b" (.int 1), .group "g" [.leaf "b" (.int 2)]] = .error (.dupKey "b") :=
  ⟨by decide, text_flatten_duplicate_key_error _ (by decide), by rfl, by rfl⟩

/-- C6: `attrs2JSONLogrusField` of package logrus, and likewise of package
zap, returns a duplicate-key error if and only if some attribute list of the
tree (the top level, or the children of one group) holds two attributes with
the same key; otherwise it succeeds. -/
theorem json_flatten_error_iff_same_level (attrs : List Attr) :
    ((∃ k, logrus.attrs2JSONLogrusField attrs = .error (.dupKey k)) ↔
        ∃ l ∈ attrLists attrs, sameKeyTwice l) ∧
      ((∃ k, zap.attrs2JSONLogrusField attrs = .error (.dupKey k)) ↔
        ∃ l ∈ attrLists attrs, sameKeyTwice l) ∧
      ((∃ m, logrus.attrs2JSONLogrusField attrs = .ok m) ↔
        ¬ ∃ l ∈ attrLists attrs, sameKeyTwice l) ∧
      ((∃ m, zap.attrs2JSONLogrusField attrs = .ok m) ↔
        ¬ ∃ l ∈ attrLists attrs, sameKeyTwice l) := by
  have h1 : (∃ m, logrus.attrs2JSONLogrusField attrs = .ok m) ↔
      ¬ ∃ l ∈ attrLists attrs, sameKeyTwice l := by
    rw [exists_sameKeyTwice_iff]
    exact logrus_json_ok_iff attrs
  have h2 : (∃ m, zap.attrs2JSONLogrusField attrs = .ok m) ↔
      ¬ ∃ l ∈ attrLists attrs, sameKeyTwice l := by
    rw [exists_sameKeyTwice_iff]
    exact zap_json_ok_iff attrs
  exact ⟨error_iff_of_ok_iff _ _ h1 (logrus_json_error_is_dupKey attrs),
    error_iff_of_ok_iff _ _ h2 (zap_json_error_is_dupKey attrs), h1, h2⟩

/-- Witness of C6: the key `x` occurring at the top level and inside the group
`g` is no error for either nested-object flattener, while `x` occurring twice
inside `g` is one for both. -/
theorem json_flatten_error_iff_same_level_witness :
    (¬ ∃ k, logrus.attrs2JSONLogrusField
        [.leaf "x" (.int 1), .group "g" [.leaf "x" (.int 2)]] = .error (.dupKey k)) ∧
      (¬ ∃ k, zap.attrs2JSONLogrusField
        [.leaf "x" (.int 1), .group "g" [.leaf "x" (.int 2)]] = .error (.dupKey k)) ∧
      (∃ k, logrus.attrs2JSONLogrusField
        [.leaf "y" (.int 1), .group "g" [.leaf "x" (.int 2), .leaf "x" (.int 3)]] =
          .error (.dupKey k)) ∧
      (∃ k, zap.attrs2JSONLogrusField
        [.leaf "y" (.int 1), .group "g" [.leaf "x" (.int 2), .leaf "x" (.int 3)]] =
          .error (.dupKey k)) :=
  ⟨fun hc => absurd ((json_flatten_error_iff_same_level _).1.1 hc) (by decide),
    fun hc => absurd ((json_flatten_error_iff_same_level _).2.1.1 hc) (by decide),
    (json_flatten_error_iff_same_level _).1.2 (by decide),
    (json_flatten_error_iff_same_level _).2.1.2 (by decide)⟩

/-- C7: for every handler of either package and every record, when the
flattener called by `Handle` returns an error, `Handle` returns that error and
leaves the sink as it was; when the flattener succeeds with the fields `m`,
`Handle` performs exactly one write on the sink, carrying `m` with the time and
source fields added (and, for zap, returns what that write returned). -/
theorem handle_error_or_single_write (cf : Nat → Frame) (h : logrus.Handler)
    (z : zap.Handler) (r : Record) (logr : logrus.Logger) (core : zap.Core) :
    (∀ e, h.flatten r = .error e → h.Handle cf r logr = (some e, logr)) ∧
      (∀ m, h.flatten r = .ok m →
        h.Handle cf r logr = (none, logr ++ [⟨logrus.level2LogrusLevel r.Level, r.Message,
          logrus.Handler.addRecordFields cf h r m⟩])) ∧
      (∀ e, z.flatten r = .error e → z.Handle cf r core = (some e, core)) ∧
      (∀ m, z.flatten r = .ok m →
        z.Handle cf r core = (core.writeErr,
          ⟨core.written ++ [⟨zap.level2ZapLevel r.Level, r.Message,
            zap.Handler.addRecordFields cf z r m⟩], core.writeErr⟩)) := by
  refine ⟨?_, ?_, ?_, ?_⟩
  · intro e he
    simp [logrus.Handler.Handle, he]
  · intro m hm
    simp [logrus.Handler.Handle, hm]
  · intro e he
    simp [zap.Handler.Handle, he]
  · intro m hm
    simp [zap.Handler.Handle, hm, zap.Core.Write]

/-- Witness of C7: a record carrying the key `x` twice makes both handlers
return the duplicate-key error without a write; a record carrying `x` once
makes both perform one write. -/
theorem handle_error_or_single_write_witness :
    (logrus.NewHandler ⟨false, false, 0⟩).Handle (fun _ => ⟨"", 0, ""⟩)
        ⟨0, "message", 0, 0, [.leaf "x" (.int 1), .leaf "x" (.int 2)]⟩ [] =
        (some (.dupKey "x"), []) ∧
      (logrus.NewHandler ⟨false, false, 0⟩).Handle (fun _ => ⟨"", 0, ""⟩)
        ⟨0, "message", 0, 0, [.leaf "x" (.int 1)]⟩ [] =
        (none, [⟨logrus.InfoLevel, "message", [("x", .scalar (.int 1))]⟩]) ∧
      (zap.NewHandler ⟨false, false, 0, false⟩).Handle (fun _ => ⟨"", 0, ""⟩)
        ⟨0, "message", 0, 0, [.leaf "x" (.int 1), .leaf "x" (.int 2)]⟩ ⟨[], none⟩ =
        (some (.dupKey "x"), ⟨[], none⟩) ∧
      (zap.NewHandler ⟨false, false, 0, false⟩).Handle (fun _ => ⟨"", 0, ""⟩)
        ⟨0, "message", 0, 0, [.leaf "x" (.int 1)]⟩ ⟨[], none⟩ =
        (none, ⟨[⟨zap.InfoLevel, "message", [("x", .scalar (.int 1))]⟩], none⟩) :=
  ⟨(handle_error_or_single_write (fun _ => ⟨"", 0, ""⟩) (logrus.NewHandler ⟨false, false, 0⟩)
      (zap.NewHandler ⟨false, false, 0, false⟩)
      ⟨0, "message", 0, 0, [.leaf "x" (.int 1), .leaf "x" (.int 2)]⟩ [] ⟨[], none⟩).1
      (.dupKey "x") rfl,
    (handle_error_or_single_write (fun _ => ⟨"", 0, ""⟩) (logrus.NewHandler ⟨false, false, 0⟩)
      (zap.NewHandler ⟨false, false, 0, false⟩)
      ⟨0, "message", 0, 0, [.leaf "x" (.int 1)]⟩ [] ⟨[], none⟩).2.1
      [("x", .scalar (.int 1))] rfl,
    (handle_error_or_single_write (fun _ => ⟨"", 0, ""⟩) (logrus.NewHandler ⟨false, false, 0⟩)
      (zap.NewHandler ⟨false, false, 0, false⟩)
      ⟨0, "message", 0, 0, [.leaf "x" (.int 1), .leaf "x" (.int 2)]⟩ [] ⟨[], none⟩).2.2.1
      (.dupKey "x") rfl,
    (handle_error_or_single_write (fun _ => ⟨"", 0, ""⟩) (logrus.NewHandler ⟨false, false, 0⟩)
      (zap.NewHandler ⟨false, false, 0, false⟩)
      ⟨0, "message", 0, 0, [.leaf "x" (.int 1)]⟩ [] ⟨[], none⟩).2.2.2
      [("x", .scalar (.int 1))] rfl⟩

/-- The fields written by `Handle` for a handler derived by steps `WithAttrs`
and `WithGroup`, read with the attribute lists as values: what the chain holds
when every frame still has the attributes its derivation gave it. -/
theorem logrus_chain_fields_by_value (cf : Nat → Frame) (options : logrus.HandlerOptions)
    (ops : List Op) (r : Record) (logr : logrus.Logger)
    (hjson : options.JSONFormatter = false)
    (hops : ∀ op ∈ ops, op.plain)
    (hrec : ∀ a ∈ r.attrs, a.isGroup = false ∧ a.Key ≠ "")
    (hok : ∃ m, (deriveLogrus (logrus.NewHandler options) ops).flatten r = .ok m) :
    ∃ fields,
      (deriveLogrus (logrus.NewHandler options) ops).Handle cf r logr =
        (none, logr ++ [⟨logrus.level2LogrusLevel r.Level, r.Message, fields⟩]) ∧
      (fields.map Prod.fst).Nodup ∧
      (expectedEntries [] ops r.attrs).length = Op.attrCount ops + r.attrs.length ∧
      ((expectedEntries [] ops r.attrs).map Prod.fst).Nodup ∧
      (∀ k, k ∉ (deriveLogrus (logrus.NewHandler options) ops).ownKeys r →
        ∀ v, (k, v) ∈ fields ↔ (k, v) ∈ toFields (expectedEntries [] ops r.attrs)) ∧
      (r.Time = 0 → r.PC = 0 → fields.Perm (toFields (expectedEntries [] ops r.attrs))) := by
  obtain ⟨m, hm⟩ := hok
  obtain ⟨hperm, hnd⟩ := logrus_flatten_chain_perm options ops r m hjson hops hrec hm
  refine ⟨logrus.Handler.addRecordFields cf
    (deriveLogrus (logrus.NewHandler options) ops) r m, ?_, ?_, ?_, ?_, ?_, ?_⟩
  · simp [logrus.Handler.Handle, hm]
  · exact logrus_nodup_addRecordFields cf _ r m hnd
  · exact expectedEntries_length ops [] r.attrs hops (fun a ha => (hrec a ha).1)
  · have h1 := (hperm.map Prod.fst).nodup_iff.1 hnd
    rwa [toFields_keys] at h1
  · intro k hk v
    rw [logrus_mem_addRecordFields cf _ r m k v hk]
    exact hperm.mem_iff
  · intro ht hpc
    simpa [logrus.Handler.addRecordFields, ht, hpc] using hperm

/-- Counterexample to C4: a fresh logrus handler in dot-qualified mode handles
a record that has a timestamp and a single attribute keyed with the time key,
of value `1`; flattening succeeds, and the field of that key written to the
backend holds the timestamp, not the attribute's value `1` that the expected
entries hold. -/
theorem logrus_handle_time_attr_overwritten :
    (∀ a ∈ [Attr.leaf logrus.timeKey (.int 1)], a.isGroup = false ∧ a.Key ≠ "") ∧
      (deriveLogrus (logrus.NewHandler ⟨false, false, 0⟩) []).flatten
        ⟨5, "message", 0, 0, [.leaf logrus.timeKey (.int 1)]⟩ =
        .ok [(logrus.timeKey, .scalar (.int 1))] ∧
      (deriveLogrus (logrus.NewHandler ⟨false, false, 0⟩) []).Handle (fun _ => ⟨"", 0, ""⟩)
        ⟨5, "message", 0, 0, [.leaf logrus.timeKey (.int 1)]⟩ [] =
        (none, [⟨logrus.InfoLevel, "message", [(logrus.timeKey, .scalar (.time 5))]⟩]) ∧
      expectedEntries [] [] [.leaf logrus.timeKey (.int 1)] = [(logrus.timeKey, .int 1)] ∧
      ¬ (∀ e ∈ toFields (expectedEntries [] [] [.leaf logrus.timeKey (.int 1)]),
        e ∈ [(logrus.timeKey, FVal.scalar (.time 5))]) := by
  refine ⟨by simp [Attr.isGroup, Attr.Key, logrus.timeKey], rfl, rfl, rfl, ?_⟩
  intro hc
  have h1 := hc (logrus.timeKey, FVal.scalar (.int 1))
    (by simp [toFields, expectedEntries, leafEntries, Attr.leafEntries, qualify])
  simp at h1

/-- C8: evaluation of `Attrs` on the chain
`root.WithAttrs([p1=1]).WithGroup("s1").WithAttrs([p2=2])`: the result is the
group `s1` followed by the attribute `p1` of the root frame, not `p1` followed
by the group. -/
theorem attrs_root_frame_after_group :
    (((helper.AttrGroup.empty.WithAttrs [.leaf "p1" (.int 1)]).WithGroup "s1").WithAttrs
        [.leaf "p2" (.int 2)]).Attrs =
        [slog.Group "s1" [.leaf "p2" (.int 2)], .leaf "p1" (.int 1)] ∧
      (((helper.AttrGroup.empty.WithAttrs [.leaf "p1" (.int 1)]).WithGroup "s1").WithAttrs
        [.leaf "p2" (.int 2)]).Attrs ≠
        [.leaf "p1" (.int 1)] ++ [slog.Group "s1" [.leaf "p2" (.int 2)]] := by
  refine ⟨rfl, ?_⟩
  intro hc
  have h1 : (((helper.AttrGroup.empty.WithAttrs [.leaf "p1" (.int 1)]).WithGroup "s1").WithAttrs
      [.leaf "p2" (.int 2)]).Attrs =
      [slog.Group "s1" [.leaf "p2" (.int 2)], .leaf "p1" (.int 1)] := rfl
  rw [h1] at hc
  simp [slog.Group] at hc

/-- C9: evaluation on a sequence holding `x=1` and a group with empty key
holding `x=2`. The dot-qualified flattener of package logrus keys the child
`.x` and succeeds, whereas on the sequence with the child spliced in it returns
a duplicate-key error; `Handle` returns no error and writes once, both when
the sequence was added with `WithAttrs` and when it is carried by the record
(where the group is dropped for its empty key), whereas on the spliced
sequence it returns the error and writes nothing. -/
theorem empty_key_group_not_inlined :
    logrus.attrs2TextLogrusField [.leaf "x" (.int 1), .group "" [.leaf "x" (.int 2)]] =
        .ok [("x", .scalar (.int 1)), (".x", .scalar (.int 2))] ∧
      logrus.attrs2TextLogrusField [.leaf "x" (.int 1), .leaf "x" (.int 2)] =
        .error (.dupKey "x") ∧
      ((logrus.NewHandler ⟨false, false, 0⟩).WithAttrs
          [.leaf "x" (.int 1), .group "" [.leaf "x" (.int 2)]]).Handle (fun _ => ⟨"", 0, ""⟩)
        ⟨0, "message", 0, 0, []⟩ [] =
        (none, [⟨logrus.InfoLevel, "message",
          [("x", .scalar (.int 1)), (".x", .scalar (.int 2))]⟩]) ∧
      (logrus.NewHandler ⟨false, false, 0⟩).Handle (fun _ => ⟨"", 0, ""⟩)
        ⟨0, "message", 0, 0, [.leaf "x" (.int 1), .group "" [.leaf "x" (.int 2)]]⟩ [] =
        (none, [⟨logrus.InfoLevel, "message", [("x", .scalar (.int 1))]⟩]) ∧
      (logrus.NewHandler ⟨false, false, 0⟩).Handle (fun _ => ⟨"", 0, ""⟩)
        ⟨0, "message", 0, 0, [.leaf "x" (.int 1), .leaf "x" (.int 2)]⟩ [] =
        (some (.dupKey "x"), []) :=
  ⟨rfl, rfl, rfl, rfl, rfl⟩

/-- C10: evaluation of `Handle` of package logrus on attributes with an empty
key. An attribute `""=1` added to the root frame with `WithAttrs` reaches the
backend as the field keyed `""`; an attribute `""=1` inside the group `g` of a
record reaches it as the field keyed `g.`; the same attribute added to the
named frame `s`, or carried by the record itself, is dropped. -/
theorem empty_key_attr_reaches_backend :
    ((logrus.NewHandler ⟨false, false, 0⟩).WithAttrs [.leaf "" (.int 1)]).Handle
        (fun _ => ⟨"", 0, ""⟩) ⟨0, "message", 0, 0, []⟩ [] =
        (none, [⟨logrus.InfoLevel, "message", [("", .scalar (.int 1))]⟩]) ∧
      (logrus.NewHandler ⟨false, false, 0⟩).Handle (fun _ => ⟨"", 0, ""⟩)
        ⟨0, "message", 0, 0, [.group "g" [.leaf "" (.int 1)]]⟩ [] =
        (none, [⟨logrus.InfoLevel, "message", [("g.", .scalar (.int 1))]⟩]) ∧
      (((logrus.NewHandler ⟨false, false, 0⟩).WithGroup "s").WithAttrs
          [.leaf "" (.int 1), .leaf "a" (.int 2)]).Handle
        (fun _ => ⟨"", 0, ""⟩) ⟨0, "message", 0, 0, []⟩ [] =
        (none, [⟨logrus.InfoLevel, "message", [("s.a", .scalar (.int 2))]⟩]) ∧
      (logrus.NewHandler ⟨false, false, 0⟩).Handle (fun _ => ⟨"", 0, ""⟩)
        ⟨0, "message", 0, 0, [.leaf "" (.int 1), .leaf "a" (.int 2)]⟩ [] =
        (none, [⟨logrus.InfoLevel, "message", [("a", .scalar (.int 2))]⟩]) :=
  ⟨rfl, rfl, rfl, rfl⟩

/-! ## Claims on the chain operations and the level translations -/

/-- C11: evaluation of `Handle` of package logrus in dot-qualified mode on the
handler `h = NewHandler(...).WithAttrs([s=1])`, the group name `s` and the
record attributes `[a=1]`: handling `[a=1]` on `h.WithGroup("s")` succeeds and
writes the fields `s.a:1, s:1`, whereas handling the single attribute
`Group("s", a=1)` on `h` returns a duplicate-key error and writes nothing. The
two attribute sequences flattened hold the same attributes in a different
order. -/
theorem withGroup_differs_from_group_attr :
    (((logrus.NewHandler ⟨false, false, 0⟩).WithAttrs [.leaf "s" (.int 1)]).WithGroup
          "s").mergedAttrs ⟨0, "message", 0, 0, [.leaf "a" (.int 1)]⟩ =
        [slog.Group "s" [.leaf "a" (.int 1)], .leaf "s" (.int 1)] ∧
      ((logrus.NewHandler ⟨false, false, 0⟩).WithAttrs [.leaf "s" (.int 1)]).mergedAttrs
          ⟨0, "message", 0, 0, [slog.Group "s" [.leaf "a" (.int 1)]]⟩ =
        [.leaf "s" (.int 1), slog.Group "s" [.leaf "a" (.int 1)]] ∧
      (((logrus.NewHandler ⟨false, false, 0⟩).WithAttrs [.leaf "s" (.int 1)]).WithGroup
          "s").Handle (fun _ => ⟨"", 0, ""⟩) ⟨0, "message", 0, 0, [.leaf "a" (.int 1)]⟩ [] =
        (none, [⟨logrus.InfoLevel, "message",
          [("s.a", .scalar (.int 1)), ("s", .scalar (.int 1))]⟩]) ∧
      ((logrus.NewHandler ⟨false, false, 0⟩).WithAttrs [.leaf "s" (.int 1)]).Handle
          (fun _ => ⟨"", 0, ""⟩)
          ⟨0, "message", 0, 0, [slog.Group "s" [.leaf "a" (.int 1)]]⟩ [] =
        (some (.dupKey "s"), []) :=
  ⟨rfl, rfl, rfl, rfl⟩

/-- C12: evaluation of the four flatteners and of `Handle` on sequences
holding a group without attributes. The dot-qualified flatteners return a
duplicate-key error raised by the key of the group where the sequence without
the group flattens to `g:1`; the nested-object flatteners emit a field keyed
by the group where the sequence without the group gives no field. `Handle`
meets such a group whenever a group opened with `WithGroup` receives no
attribute. -/
theorem attributeless_group_not_ignored :
    logrus.attrs2TextLogrusField [.leaf "g" (.int 1), .group "g" []] = .error (.dupKey "g") ∧
      logrus.attrs2TextLogrusField [.leaf "g" (.int 1)] = .ok [("g", .scalar (.int 1))] ∧
      zap.attrs2TextLogrusField [.group "g" [], .leaf "g" (.int 1)] = .error (.dupKey "g") ∧
      zap.attrs2TextLogrusField [.leaf "g" (.int 1)] = .ok [("g", .scalar (.int 1))] ∧
      logrus.attrs2JSONLogrusField [.group "g" []] = .ok [("g", .obj [])] ∧
      logrus.attrs2JSONLogrusField [] = .ok [] ∧
      zap.attrs2JSONLogrusField [.group "g" []] = .ok [("g", .obj [])] ∧
      zap.attrs2JSONLogrusField [] = .ok [] ∧
      ((logrus.NewHandler ⟨false, true, 0⟩).WithGroup "s").Handle (fun _ => ⟨"", 0, ""⟩)
          ⟨0, "message", 0, 0, []⟩ [] =
        (none, [⟨logrus.InfoLevel, "message", [("s", .obj [])]⟩]) ∧
      (((zap.NewHandler ⟨false, false, 0, false⟩).WithAttrs [.leaf "s" (.int 1)]).WithGroup
          "s").Handle (fun _ => ⟨"", 0, ""⟩) ⟨0, "message", 0, 0, []⟩ ⟨[], none⟩ =
        (some (.dupKey "s"), ⟨[], none⟩) ∧
      ((zap.NewHandler ⟨false, false, 0, false⟩).WithAttrs [.leaf "s" (.int 1)]).Handle
          (fun _ => ⟨"", 0, ""⟩) ⟨0, "message", 0, 0, []⟩ ⟨[], none⟩ =
        (none, ⟨[⟨zap.InfoLevel, "message", [("s", .scalar (.int 1))]⟩], none⟩) :=
  ⟨rfl, rfl, rfl, rfl, rfl, rfl, rfl, rfl, rfl, rfl, rfl⟩

/-- C13: for every non-empty group name `g` and every attribute list `A` whose
keys are all non-empty (empty or not), resolving
`(&AttrGroup{}).WithGroup(g).WithAttrs(A)` gives the one-element sequence
`[Group(g, A...)]`, and resolving `(&AttrGroup{}).WithAttrs(A)` gives `A`. -/
theorem attrs_of_fresh_chain (g : String) (A : List Attr) (hg : g ≠ "")
    (hA : ∀ a ∈ A, a.Key ≠ "") :
    ((helper.AttrGroup.empty.WithGroup g).WithAttrs A).Attrs = [slog.Group g A] ∧
      (helper.AttrGroup.empty.WithAttrs A).Attrs = A := by
  have hk := helper.AttrGroup.keepKeyed_eq_self A hA
  have hk0 : helper.AttrGroup.keepKeyed [] = [] := rfl
  constructor
  · rw [helper.AttrGroup.Attrs_eq_foldl, helper.AttrGroup.frames_WithAttrs,
      helper.AttrGroup.WithGroup, if_neg hg]
    simp [helper.AttrGroup.name, helper.AttrGroup.attrs, helper.AttrGroup.top,
      helper.AttrGroup.framesOpt, helper.AttrGroup.frames, helper.AttrGroup.empty,
      stepFrame, hg, hk, hk0]
  · rw [helper.AttrGroup.Attrs_eq_foldl, helper.AttrGroup.frames_WithAttrs]
    simp [helper.AttrGroup.name, helper.AttrGroup.attrs, helper.AttrGroup.top,
      helper.AttrGroup.framesOpt, helper.AttrGroup.empty, stepFrame]

/-- Witness of C13: the group `group000` and the attributes
`int001=1, int002=2, int003=3` of the test of `Attrs`. -/
theorem attrs_of_fresh_chain_witness :
    ("group000" ≠ "" ∧
      ∀ a ∈ [Attr.leaf "int001" (.int 1), .leaf "int002" (.int 2), .leaf "int003" (.int 3)],
        a.Key ≠ "") ∧
      (((helper.AttrGroup.empty.WithGroup "group000").WithAttrs
          [.leaf "int001" (.int 1), .leaf "int002" (.int 2), .leaf "int003" (.int 3)]).Attrs =
          [slog.Group "group000"
            [.leaf "int001" (.int 1), .leaf "int002" (.int 2), .leaf "int003" (.int 3)]] ∧
        (helper.AttrGroup.empty.WithAttrs
          [.leaf "int001" (.int 1), .leaf "int002" (.int 2), .leaf "int003" (.int 3)]).Attrs =
          [.leaf "int001" (.int 1), .leaf "int002" (.int 2), .leaf "int003" (.int 3)]) :=
  ⟨⟨by decide, by simp [Attr.Key]⟩,
    attrs_of_fresh_chain "group000" _ (by decide) (by simp [Attr.Key])⟩

/-- C14: for every chain `c`, `c.WithGroup("")` is equal to `c`, with the same
name, attribute list, parent and frames, and resolves to the same sequence. -/
theorem withGroup_empty_name_noop (c : helper.AttrGroup) :
    c.WithGroup "" = c ∧
      (c.WithGroup "").name = c.name ∧ (c.WithGroup "").attrs = c.attrs ∧
      (c.WithGroup "").top = c.top ∧ (c.WithGroup "").frames = c.frames ∧
      (c.WithGroup "").Attrs = c.Attrs := by
  have h : c.WithGroup "" = c := by
    simp [helper.AttrGroup.WithGroup, helper.AttrGroup.clone_eq]
  simp [h]

/-- C15: for every chain `c`, `c.WithAttrs([])` is equal to `c`, with the same
name, attribute list, parent and frames, and resolves to the same sequence. -/
theorem withAttrs_empty_list_noop (c : helper.AttrGroup) :
    c.WithAttrs [] = c ∧
      (c.WithAttrs []).name = c.name ∧ (c.WithAttrs []).attrs = c.attrs ∧
      (c.WithAttrs []).top = c.top ∧ (c.WithAttrs []).frames = c.frames ∧
      (c.WithAttrs []).Attrs = c.Attrs := by
  have h : c.WithAttrs [] = c := by
    simp [helper.AttrGroup.WithAttrs, helper.AttrGroup.clone_eq]
  simp [h]

/-- C16: for every chain `c` and every non-empty name `n`, whatever the names
of the frames of `c`, `c.WithGroup(n)` is a frame of name `n`, with an empty
attribute list and the parent `c`: one frame more than `c`, and different
from `c`. -/
theorem withGroup_named_frame (c : helper.AttrGroup) (n : String) (hn : n ≠ "") :
    (c.WithGroup n).name = n ∧ (c.WithGroup n).attrs = [] ∧
      (c.WithGroup n).top = some c ∧
      (c.WithGroup n).frames = (n, []) :: c.frames ∧
      c.WithGroup n ≠ c := by
  have hf := helper.AttrGroup.frames_WithGroup c n hn
  refine ⟨?_, ?_, ?_, hf, ?_⟩
  · simp [helper.AttrGroup.WithGroup, hn, helper.AttrGroup.name]
  · simp [helper.AttrGroup.WithGroup, hn, helper.AttrGroup.attrs]
  · simp [helper.AttrGroup.WithGroup, hn, helper.AttrGroup.top]
  · intro hc
    rw [hc] at hf
    have hl := congrArg List.length hf
    simp at hl

/-- Witness of C16: opening the group `g` on a chain whose current frame is
already named `g` adds a second frame named `g` with that chain as parent. -/
theorem withGroup_named_frame_witness :
    "g" ≠ "" ∧
      ((helper.AttrGroup.empty.WithGroup "g").WithGroup "g").name = "g" ∧
      ((helper.AttrGroup.empty.WithGroup "g").WithGroup "g").attrs = [] ∧
      ((helper.AttrGroup.empty.WithGroup "g").WithGroup "g").top =
        some (helper.AttrGroup.empty.WithGroup "g") ∧
      ((helper.AttrGroup.empty.WithGroup "g").WithGroup "g").frames =
        ("g", []) :: (helper.AttrGroup.empty.WithGroup "g").frames ∧
      (helper.AttrGroup.empty.WithGroup "g").WithGroup "g" ≠
        helper.AttrGroup.empty.WithGroup "g" :=
  ⟨by decide, withGroup_named_frame (helper.AttrGroup.empty.WithGroup "g") "g" (by decide)⟩

/-- C17: for every chain `c` and every non-empty attribute list `A`,
`c.WithAttrs(A)` is a frame with the name and the parent of `c` whose attribute
list is the attribute list of `c` followed by `A`. -/
theorem withAttrs_appends (c : helper.AttrGroup) (A : List Attr) (hA : A ≠ []) :
    (c.WithAttrs A).name = c.name ∧ (c.WithAttrs A).top = c.top ∧
      (c.WithAttrs A).attrs = c.attrs ++ A := by
  have hl : ¬ A.length = 0 := fun h => hA (List.length_eq_zero.1 h)
  simp [helper.AttrGroup.WithAttrs, hl, helper.AttrGroup.name, helper.AttrGroup.top,
    helper.AttrGroup.attrs]

/-- Witness of C17: the chain and the attributes of the test of `WithAttrs`. -/
theorem withAttrs_appends_witness :
    [Attr.leaf "int001" (.int 1), .leaf "int002" (.int 2), .leaf "int003" (.int 3)] ≠ [] ∧
      (helper.AttrGroup.empty.WithAttrs
          [.leaf "int001" (.int 1), .leaf "int002" (.int 2), .leaf "int003" (.int 3)]).name =
        helper.AttrGroup.empty.name ∧
      (helper.AttrGroup.empty.WithAttrs
          [.leaf "int001" (.int 1), .leaf "int002" (.int 2), .leaf "int003" (.int 3)]).top =
        helper.AttrGroup.empty.top ∧
      (helper.AttrGroup.empty.WithAttrs
          [.leaf "int001" (.int 1), .leaf "int002" (.int 2), .leaf "int003" (.int 3)]).attrs =
        helper.AttrGroup.empty.attrs ++
          [.leaf "int001" (.int 1), .leaf "int002" (.int 2), .leaf "int003" (.int 3)] :=
  ⟨by simp, withAttrs_appends helper.AttrGroup.empty _ (by simp)⟩

/-- C18: evaluation of `WithAttrs` with the slices kept. After
`c := (&AttrGroup{}).WithAttrs([a=1]).WithAttrs([b=2]).WithAttrs([c=3])` the
slice of `c` has length 3 and capacity 4; `d := c.WithAttrs([x=4])` then holds
`a, b, c, x` in the backing array of `c`; the later call `c.WithAttrs([y=5])`
writes `y=5` into the same cell, after which the attribute list and the
resolved output of `d` are `a, b, c, y`. The attribute list of `c` itself
stays `a, b, c`. -/
theorem withAttrs_shares_backing_array :
    helper.sliced.sharedParent.2.attrs = ⟨2, 3, 4⟩ ∧
      helper.sliced.firstChild.2.attrs = ⟨2, 4, 4⟩ ∧
      helper.sliced.secondChild.2.attrs = ⟨2, 4, 4⟩ ∧
      (helper.sliced.AttrGroup.view helper.sliced.firstChild.1
          helper.sliced.firstChild.2).attrs =
        [.leaf "a" (.int 1), .leaf "b" (.int 2), .leaf "c" (.int 3), .leaf "x" (.int 4)] ∧
      helper.sliced.AttrGroup.Attrs helper.sliced.firstChild.1 helper.sliced.firstChild.2 =
        [.leaf "a" (.int 1), .leaf "b" (.int 2), .leaf "c" (.int 3), .leaf "x" (.int 4)] ∧
      (helper.sliced.AttrGroup.view helper.sliced.secondChild.1
          helper.sliced.firstChild.2).attrs =
        [.leaf "a" (.int 1), .leaf "b" (.int 2), .leaf "c" (.int 3), .leaf "y" (.int 5)] ∧
      helper.sliced.AttrGroup.Attrs helper.sliced.secondChild.1 helper.sliced.firstChild.2 =
        [.leaf "a" (.int 1), .leaf "b" (.int 2), .leaf "c" (.int 3), .leaf "y" (.int 5)] ∧
      (helper.sliced.AttrGroup.view helper.sliced.secondChild.1
          helper.sliced.sharedParent.2).attrs =
        [.leaf "a" (.int 1), .leaf "b" (.int 2), .leaf "c" (.int 3)] :=
  ⟨by decide, by decide, by decide, rfl, rfl, rfl, rfl, rfl⟩

/-- C19, as the code has it: `level2LogrusLevel` maps every defined front-end
level to the logrus level of the same name; for defined levels `a` less severe
than `b` the images are distinct, the image of `a` is less severe than the
image of `b` in the order of logrus unless `a` is panic and `b` is fatal, and
for panic and fatal the image of fatal is the less severe one. -/
theorem logrus_level_order_except_panic_fatal (a b : Int)
    (ha : a ∈ logger.levels) (hb : b ∈ logger.levels) (hab : a < b) :
    (logrus.level2LogrusLevel logger.LevelTrace = logrus.TraceLevel ∧
        logrus.level2LogrusLevel logger.LevelDebug = logrus.DebugLevel ∧
        logrus.level2LogrusLevel logger.LevelInfo = logrus.InfoLevel ∧
        logrus.level2LogrusLevel logger.LevelWarn = logrus.WarnLevel ∧
        logrus.level2LogrusLevel logger.LevelError = logrus.ErrorLevel ∧
        logrus.level2LogrusLevel logger.LevelPanic = logrus.PanicLevel ∧
        logrus.level2LogrusLevel logger.LevelFatal = logrus.FatalLevel) ∧
      logrus.level2LogrusLevel a ≠ logrus.level2LogrusLevel b ∧
      (¬ (a = logger.LevelPanic ∧ b = logger.LevelFatal) →
        logrus.lessSevere (logrus.level2LogrusLevel a) (logrus.level2LogrusLevel b)) ∧
      (a = logger.LevelPanic ∧ b = logger.LevelFatal →
        logrus.lessSevere (logrus.level2LogrusLevel b) (logrus.level2LogrusLevel a)) :=
  ⟨by decide,
    (by decide : ∀ a ∈ logger.levels, ∀ b ∈ logger.levels, a < b →
      logrus.level2LogrusLevel a ≠ logrus.level2LogrusLevel b ∧
        (¬ (a = logger.LevelPanic ∧ b = logger.LevelFatal) →
          logrus.lessSevere (logrus.level2LogrusLevel a) (logrus.level2LogrusLevel b)) ∧
        (a = logger.LevelPanic ∧ b = logger.LevelFatal →
          logrus.lessSevere (logrus.level2LogrusLevel b) (logrus.level2LogrusLevel a)))
      a ha b hb hab⟩

/-- Witness of C19: the levels error and panic. -/
theorem logrus_level_order_except_panic_fatal_witness :
    (logger.LevelError ∈ logger.levels ∧ logger.LevelPanic ∈ logger.levels ∧
      logger.LevelError < logger.LevelPanic) ∧
      ((logrus.level2LogrusLevel logger.LevelTrace = logrus.TraceLevel ∧
          logrus.level2LogrusLevel logger.LevelDebug = logrus.DebugLevel ∧
          logrus.level2LogrusLevel logger.LevelInfo = logrus.InfoLevel ∧
          logrus.level2LogrusLevel logger.LevelWarn = logrus.WarnLevel ∧
          logrus.level2LogrusLevel logger.LevelError = logrus.ErrorLevel ∧
          logrus.level2LogrusLevel logger.LevelPanic = logrus.PanicLevel ∧
          logrus.level2LogrusLevel logger.LevelFatal = logrus.FatalLevel) ∧
        logrus.level2LogrusLevel logger.LevelError ≠
          logrus.level2LogrusLevel logger.LevelPanic ∧
        (¬ (logger.LevelError = logger.LevelPanic ∧ logger.LevelPanic = logger.LevelFatal) →
          logrus.lessSevere (logrus.level2LogrusLevel logger.LevelError)
            (logrus.level2LogrusLevel logger.LevelPanic)) ∧
        (logger.LevelError = logger.LevelPanic ∧ logger.LevelPanic = logger.LevelFatal →
          logrus.lessSevere (logrus.level2LogrusLevel logger.LevelPanic)
            (logrus.level2LogrusLevel logger.LevelError))) :=
  ⟨by decide, logrus_level_order_except_panic_fatal logger.LevelError logger.LevelPanic
    (by decide) (by decide) (by decide)⟩

/-- Counterexample to C19: the front-end level panic is less severe than
fatal, and `level2LogrusLevel` maps them to `PanicLevel` and `FatalLevel`, of
which `PanicLevel` is the more severe one in the order of logrus. -/
theorem logrus_level_panic_fatal_inverted :
    logger.LevelPanic ∈ logger.levels ∧ logger.LevelFatal ∈ logger.levels ∧
      logger.LevelPanic < logger.LevelFatal ∧
      logrus.level2LogrusLevel logger.LevelPanic = logrus.PanicLevel ∧
      logrus.level2LogrusLevel logger.LevelFatal = logrus.FatalLevel ∧
      ¬ logrus.lessSevere (logrus.level2LogrusLevel logger.LevelPanic)
        (logrus.level2LogrusLevel logger.LevelFatal) := by
  decide

/-- C20: `level2ZapLevel` is strictly increasing on the defined front-end
levels; the level trace is mapped to `TraceLevel`, which is `DebugLevel - 1`
and so strictly below `DebugLevel`, the lowest level of zap. -/
theorem zap_level_strictly_increasing (a b : Int)
    (ha : a ∈ logger.levels) (hb : b ∈ logger.levels) (hab : a < b) :
    zap.level2ZapLevel a < zap.level2ZapLevel b ∧
      zap.level2ZapLevel logger.LevelTrace = zap.TraceLevel ∧
      zap.TraceLevel = zap.DebugLevel - 1 ∧
      zap.TraceLevel < zap.DebugLevel :=
  ⟨(by decide : ∀ a ∈ logger.levels, ∀ b ∈ logger.levels, a < b →
      zap.level2ZapLevel a < zap.level2ZapLevel b) a ha b hb hab,
    by decide, by decide, by decide⟩

/-- Witness of C20: the levels trace and debug. -/
theorem zap_level_strictly_increasing_witness :
    (logger.LevelTrace ∈ logger.levels ∧ logger.LevelDebug ∈ logger.levels ∧
      logger.LevelTrace < logger.LevelDebug) ∧
      (zap.level2ZapLevel logger.LevelTrace < zap.level2ZapLevel logger.LevelDebug ∧
        zap.level2ZapLevel logger.LevelTrace = zap.TraceLevel ∧
        zap.TraceLevel = zap.DebugLevel - 1 ∧
        zap.TraceLevel < zap.DebugLevel) :=
  ⟨by decide, zap_level_strictly_increasing logger.LevelTrace logger.LevelDebug
    (by decide) (by decide) (by decide)⟩

/-! ## Claims on the fallback of the level translations and on the two backends -/

/-- C21: both level translations return a level for every input; an input
that is none of the seven defined front-end levels is mapped to `TraceLevel` of
logrus by `level2LogrusLevel` and to the synthesized `TraceLevel` by
`level2ZapLevel`, and no level returned by either translation is less severe
than that. -/
theorem level_translation_fallback (level : Int) (h : level ∉ logger.levels) :
    logrus.level2LogrusLevel level = logrus.TraceLevel ∧
      zap.level2ZapLevel level = zap.TraceLevel ∧
      (∀ l : Int, ¬ logrus.lessSevere (logrus.level2LogrusLevel l) logrus.TraceLevel) ∧
      (∀ l : Int, zap.TraceLevel ≤ zap.level2ZapLevel l) := by
  simp only [logger.levels, List.mem_cons, List.mem_singleton, List.not_mem_nil, or_false,
    not_or] at h
  obtain ⟨h1, h2, h3, h4, h5, h6, h7⟩ := h
  refine ⟨?_, ?_, ?_, ?_⟩
  · simp [logrus.level2LogrusLevel, h1, h2, h3, h4, h5, h6, h7]
  · simp [zap.level2ZapLevel, h1, h2, h3, h4, h5, h6, h7]
  · intro l
    unfold logrus.level2LogrusLevel
    split_ifs <;> decide
  · intro l
    unfold zap.level2ZapLevel
    split_ifs <;> decide

/-- Witness of C21: the level 3, between info and warn. -/
theorem level_translation_fallback_witness :
    (3 : Int) ∉ logger.levels ∧
      (logrus.level2LogrusLevel 3 = logrus.TraceLevel ∧
        zap.level2ZapLevel 3 = zap.TraceLevel ∧
        (∀ l : Int, ¬ logrus.lessSevere (logrus.level2LogrusLevel l) logrus.TraceLevel) ∧
        (∀ l : Int, zap.TraceLevel ≤ zap.level2ZapLevel l)) :=
  ⟨by decide, level_translation_fallback 3 (by decide)⟩

/-- Whenever the dot-qualified flattener of package zap succeeds, the one of
package logrus succeeds with the same fields. -/
theorem zap_text_ok_imp_logrus_text_ok (attrs : List Attr) (m : Fields)
    (h : zap.attrs2TextLogrusField attrs = .ok m) :
    logrus.attrs2TextLogrusField attrs = .ok m := by
  obtain ⟨hm, hnd⟩ := zap_text_ok_inv attrs m h
  have hok := logrus_recText_ok [] attrs [] (by simp) hnd
  rw [hm]
  simpa [logrus.attrs2TextLogrusField] using hok

/-- C22: evaluation of the two dot-qualified flatteners on `[g [a=1], g=2]`
and on `[g [a=1], g [b=2]]`: `attrs2TextLogrusField` of package logrus
succeeds on both, `attrs2TextLogrusField` of package zap returns a
duplicate-key error on both; on `[g=2, g [a=1]]`, the first sequence in the
other order, both return the error. -/
theorem text_flatteners_disagree_on_group_key :
    logrus.attrs2TextLogrusField [.group "g" [.leaf "a" (.int 1)], .leaf "g" (.int 2)] =
        .ok [("g.a", .scalar (.int 1)), ("g", .scalar (.int 2))] ∧
      zap.attrs2TextLogrusField [.group "g" [.leaf "a" (.int 1)], .leaf "g" (.int 2)] =
        .error (.dupKey "g") ∧
      logrus.attrs2TextLogrusField
          [.group "g" [.leaf "a" (.int 1)], .group "g" [.leaf "b" (.int 2)]] =
        .ok [("g.a", .scalar (.int 1)), ("g.b", .scalar (.int 2))] ∧
      zap.attrs2TextLogrusField
          [.group "g" [.leaf "a" (.int 1)], .group "g" [.leaf "b" (.int 2)]] =
        .error (.dupKey "g") ∧
      logrus.attrs2TextLogrusField [.leaf "g" (.int 2), .group "g" [.leaf "a" (.int 1)]] =
        .error (.dupKey "g") ∧
      zap.attrs2TextLogrusField [.leaf "g" (.int 2), .group "g" [.leaf "a" (.int 1)]] =
        .error (.dupKey "g") :=
  ⟨rfl, rfl, rfl, rfl, rfl, rfl⟩

theorem zap_keys_addRecordFields (cf : Nat → Frame) (h : zap.Handler) (r : Record)
    (m : Fields) :
    (zap.Handler.addRecordFields cf h r m).map Prod.fst = m.map Prod.fst ++ h.ownKeys r := by
  unfold zap.Handler.addRecordFields zap.Handler.ownKeys
  by_cases ht : r.Time = 0 <;> by_cases hs : (h.addSource && r.PC ≠ 0) = true
  · simp only [if_neg (not_not_intro ht), if_pos hs]
    simp
  · simp only [if_neg (not_not_intro ht), if_neg hs]
    simp
  · simp only [if_pos ht, if_pos hs]
    simp
  · simp only [if_pos ht, if_neg hs]
    simp

theorem zap_nodup_ownKeys (h : zap.Handler) (r : Record) : (h.ownKeys r).Nodup := by
  unfold zap.Handler.ownKeys
  by_cases ht : r.Time = 0 <;> by_cases hs : (h.addSource && r.PC ≠ 0) = true
  · simp only [if_neg (not_not_intro ht), if_pos hs]
    decide
  · simp only [if_neg (not_not_intro ht), if_neg hs]
    decide
  · simp only [if_pos ht, if_pos hs]
    decide
  · simp only [if_pos ht, if_neg hs]
    decide

/-- C23, as the code has it: when `Handle` of package zap succeeds in
dot-qualified mode, it has written once; the keys of the fields written are
the qualified keys of the non-group attributes followed by the keys of the
fields that `Handle` appends itself (time, file, func); the keys of each of
the two parts are pairwise distinct, and the keys of the whole list are
pairwise distinct exactly when no key appended by `Handle` is the qualified
key of a non-group attribute. -/
theorem zap_handle_field_keys (cf : Nat → Frame) (h : zap.Handler) (r : Record)
    (core : zap.Core) (hmode : h.isJSON = false)
    (hok : (h.Handle cf r core).1 = none) :
    ∃ fields,
      (h.Handle cf r core).2.written =
        core.written ++ [⟨zap.level2ZapLevel r.Level, r.Message, fields⟩] ∧
      fields.map Prod.fst = leafKeys [] (h.mergedAttrs r) ++ h.ownKeys r ∧
      (leafKeys [] (h.mergedAttrs r)).Nodup ∧
      (h.ownKeys r).Nodup ∧
      ((fields.map Prod.fst).Nodup ↔
        ∀ k ∈ h.ownKeys r, k ∉ leafKeys [] (h.mergedAttrs r)) := by
  cases hfl : h.flatten r with
  | error e => simp [zap.Handler.Handle, hfl] at hok
  | ok m =>
    have hfl2 : zap.attrs2TextLogrusField (h.mergedAttrs r) = .ok m := by
      simpa [zap.Handler.flatten, hmode] using hfl
    obtain ⟨hm, hnd⟩ := zap_text_ok_inv _ m hfl2
    have hleaf : (leafKeys [] (h.mergedAttrs r)).Nodup :=
      (List.nodup_append.1 ((nodeKeys_perm [] (h.mergedAttrs r)).nodup_iff.1 hnd)).1
    have hown := zap_nodup_ownKeys h r
    have hkeys : (zap.Handler.addRecordFields cf h r m).map Prod.fst =
        leafKeys [] (h.mergedAttrs r) ++ h.ownKeys r := by
      rw [zap_keys_addRecordFields, hm, toFields_keys]
      rfl
    refine ⟨zap.Handler.addRecordFields cf h r m, ?_, hkeys, hleaf, hown, ?_⟩
    · simp [zap.Handler.Handle, hfl, zap.Core.Write]
    · rw [hkeys, List.nodup_append]
      constructor
      · rintro ⟨_, _, hd⟩ k hk hc
        exact hd hc hk
      · intro hd
        exact ⟨hleaf, hown, fun k hk1 hk2 => hd k hk2 hk1⟩

/-- Witness of C23: a fresh zap handler that adds the source handles a record
with a timestamp, a source location and the attribute `a=1`; the fields
written are keyed `a, time, file, func`. -/
theorem zap_handle_field_keys_witness :
    ((zap.NewHandler ⟨true, false, 0, false⟩).isJSON = false ∧
      ((zap.NewHandler ⟨true, false, 0, false⟩).Handle (fun _ => ⟨"main.go", 7, "main.run"⟩)
        ⟨5, "message", 0, 1, [.leaf "a" (.int 1)]⟩ ⟨[], none⟩).1 = none) ∧
      (∃ fields,
        ((zap.NewHandler ⟨true, false, 0, false⟩).Handle
            (fun _ => ⟨"main.go", 7, "main.run"⟩)
            ⟨5, "message", 0, 1, [.leaf "a" (.int 1)]⟩ ⟨[], none⟩).2.written =
          [] ++ [⟨zap.level2ZapLevel 0, "message", fields⟩] ∧
        fields.map Prod.fst =
          leafKeys [] ((zap.NewHandler ⟨true, false, 0, false⟩).mergedAttrs
              ⟨5, "message", 0, 1, [.leaf "a" (.int 1)]⟩) ++
            (zap.NewHandler ⟨true, false, 0, false⟩).ownKeys
              ⟨5, "message", 0, 1, [.leaf "a" (.int 1)]⟩ ∧
        (leafKeys [] ((zap.NewHandler ⟨true, false, 0, false⟩).mergedAttrs
            ⟨5, "message", 0, 1, [.leaf "a" (.int 1)]⟩)).Nodup ∧
        ((zap.NewHandler ⟨true, false, 0, false⟩).ownKeys
            ⟨5, "message", 0, 1, [.leaf "a" (.int 1)]⟩).Nodup ∧
        ((fields.map Prod.fst).Nodup ↔
          ∀ k ∈ (zap.NewHandler ⟨true, false, 0, false⟩).ownKeys
              ⟨5, "message", 0, 1, [.leaf "a" (.int 1)]⟩,
            k ∉ leafKeys [] ((zap.NewHandler ⟨true, false, 0, false⟩).mergedAttrs
              ⟨5, "message", 0, 1, [.leaf "a" (.int 1)]⟩))) ∧
      leafKeys [] ((zap.NewHandler ⟨true, false, 0, false⟩).mergedAttrs
          ⟨5, "message", 0, 1, [.leaf "a" (.int 1)]⟩) ++
        (zap.NewHandler ⟨true, false, 0, false⟩).ownKeys
          ⟨5, "message", 0, 1, [.leaf "a" (.int 1)]⟩ = ["a", "time", "file", "func"] :=
  ⟨⟨rfl, rfl⟩,
    zap_handle_field_keys (fun _ => ⟨"main.go", 7, "main.run"⟩)
      (zap.NewHandler ⟨true, false, 0, false⟩) ⟨5, "message", 0, 1, [.leaf "a" (.int 1)]⟩
      ⟨[], none⟩ rfl rfl,
    by decide⟩

/-- Counterexample to C23: a fresh zap handler in dot-qualified mode handles a
record that has a timestamp and a single attribute keyed with the time key;
`Handle` succeeds, and the field list written holds that key twice, once with
the attribute's value and once with the timestamp. -/
theorem zap_handle_time_key_twice :
    (zap.NewHandler ⟨false, false, 0, false⟩).Handle (fun _ => ⟨"", 0, ""⟩)
        ⟨5, "message", 0, 0, [.leaf zap.timeKey (.int 1)]⟩ ⟨[], none⟩ =
        (none, ⟨[⟨zap.InfoLevel, "message",
          [(zap.timeKey, .scalar (.int 1)), (zap.timeKey, .scalar (.time 5))]⟩], none⟩) ∧
      ¬ ([(zap.timeKey, FVal.scalar (.int 1)),
          (zap.timeKey, FVal.scalar (.time 5))].map Prod.fst).Nodup :=
  ⟨rfl, by decide⟩

/-! ## Lemmas: chains kept with slices -/

theorem sliced_read_length (h : helper.sliced.Heap) (s : helper.sliced.Slice)
    (hs : h.holds s) : (h.read s).length = s.len := by
  obtain ⟨h1, h2⟩ := hs
  unfold helper.sliced.Heap.read
  rw [List.length_take]
  rcases h2 with h2 | ⟨_, h2⟩
  · omega
  · omega

theorem sliced_getD_set_self (h : helper.sliced.Heap) (a : Nat) (arr : List Attr)
    (ha : a < h.length) : (h.set a arr).getD a [] = arr := by
  simp [List.getD_eq_getElem?_getD, ha]

theorem sliced_getD_set_ne (h : helper.sliced.Heap) (a b : Nat) (arr : List Attr)
    (hab : b ≠ a) : (h.set a arr).getD b [] = h.getD b [] := by
  simp [List.getD_eq_getElem?_getD, List.getElem?_set_ne (Ne.symm hab)]

theorem sliced_getD_append_left (h : helper.sliced.Heap) (b : Nat) (arr : List Attr)
    (hb : b < h.length) : (h ++ [arr]).getD b [] = h.getD b [] := by
  simp [List.getD_eq_getElem?_getD, List.getElem?_append_left hb]

theorem sliced_getD_append_self (h : helper.sliced.Heap) (arr : List Attr) :
    (h ++ [arr]).getD h.length [] = arr := by
  simp [List.getD_eq_getElem?_getD]

theorem sliced_take_append_left (A xs D : List Attr) (n : Nat) (hn : A.length = n) :
    (A ++ xs ++ D).take (n + xs.length) = A ++ xs := by
  have hl : (A ++ xs).length = n + xs.length := by simp [hn]
  rw [← hl]
  exact List.take_left' rfl

theorem sliced_appendWith_read (grow : Nat → Nat → Nat) (h : helper.sliced.Heap)
    (s : helper.sliced.Slice) (xs : List Attr) (hs : h.holds s) (hxs : xs ≠ []) :
    (h.appendWith grow s xs).1.read (h.appendWith grow s xs).2 = h.read s ++ xs := by
  have hpos : 0 < xs.length := List.length_pos.2 hxs
  have hlen := sliced_read_length h s hs
  unfold helper.sliced.Heap.appendWith
  split
  · rename_i hfit
    obtain ⟨_, h2⟩ := hs
    rcases h2 with h2 | ⟨ha, _⟩
    · omega
    · simp only [helper.sliced.Heap.read, sliced_getD_set_self h s.array _ ha]
      exact sliced_take_append_left _ xs _ s.len hlen
  · simp only [helper.sliced.Heap.read, sliced_getD_append_self]
    exact sliced_take_append_left _ xs _ s.len hlen

theorem sliced_appendWith_holds_new (grow : Nat → Nat → Nat)
    (hgrow : ∀ c n, n ≤ grow c n) (h : helper.sliced.Heap)
    (s : helper.sliced.Slice) (xs : List Attr) (hs : h.holds s) (hxs : xs ≠ []) :
    (h.appendWith grow s xs).1.holds (h.appendWith grow s xs).2 := by
  have hpos : 0 < xs.length := List.length_pos.2 hxs
  have hlen := sliced_read_length h s hs
  unfold helper.sliced.Heap.appendWith
  split
  · rename_i hfit
    obtain ⟨_, h2⟩ := hs
    rcases h2 with h2 | ⟨ha, hc⟩
    · omega
    · refine ⟨hfit, Or.inr ⟨by simpa using ha, ?_⟩⟩
      simp only [sliced_getD_set_self h s.array _ ha]
      simp only [List.length_append, List.length_take, List.length_drop, hc]
      omega
  · have hg := hgrow s.cap (s.len + xs.length)
    refine ⟨hg, Or.inr ⟨by simp, ?_⟩⟩
    simp only [sliced_getD_append_self, List.length_append, List.length_replicate, hlen]
    omega

theorem sliced_appendWith_holds_old (grow : Nat → Nat → Nat) (h : helper.sliced.Heap)
    (s f : helper.sliced.Slice) (xs : List Attr) (hs : h.holds s) (hf : h.holds f) :
    (h.appendWith grow s xs).1.holds f := by
  unfold helper.sliced.Heap.appendWith
  obtain ⟨hf1, hf2⟩ := hf
  split
  · rename_i hfit
    refine ⟨hf1, ?_⟩
    rcases hf2 with hf2 | ⟨hfa, hfc⟩
    · exact Or.inl hf2
    · refine Or.inr ⟨by simpa using hfa, ?_⟩
      by_cases hsame : f.array = s.array
      · obtain ⟨hs1, hs2⟩ := hs
        rw [hsame] at hfa hfc ⊢
        simp only [sliced_getD_set_self h s.array _ hfa]
        simp only [List.length_append, List.length_take, List.length_drop, hfc]
        rcases hs2 with hs2 | ⟨_, hsc⟩
        · omega
        · rw [hfc] at hsc
          omega
      · simp only [sliced_getD_set_ne h s.array f.array _ hsame]
        exact hfc
  · refine ⟨hf1, ?_⟩
    rcases hf2 with hf2 | ⟨hfa, hfc⟩
    · exact Or.inl hf2
    · refine Or.inr ⟨by simp; omega, ?_⟩
      simp only [sliced_getD_append_left h f.array _ hfa]
      exact hfc

theorem sliced_appendWith_read_old (grow : Nat → Nat → Nat) (h : helper.sliced.Heap)
    (s f : helper.sliced.Slice) (xs : List Attr) (hf : h.holds f) (hxs : xs ≠ [])
    (hsep : f.len = 0 ∨ s.cap = 0 ∨ f.array ≠ s.array) :
    (h.appendWith grow s xs).1.read f = h.read f := by
  have hpos : 0 < xs.length := List.length_pos.2 hxs
  unfold helper.sliced.Heap.appendWith
  obtain ⟨hf1, hf2⟩ := hf
  split
  · rename_i hfit
    rcases hsep with h0 | h0 | h0
    · simp [helper.sliced.Heap.read, h0]
    · omega
    · simp only [helper.sliced.Heap.read, sliced_getD_set_ne h s.array f.array _ h0]
  · rcases hf2 with hf2 | ⟨hfa, _⟩
    · have h0 : f.len = 0 := by omega
      simp [helper.sliced.Heap.read, h0]
    · simp only [helper.sliced.Heap.read, sliced_getD_append_left h f.array _ hfa]

theorem sliced_appendWith_sep (grow : Nat → Nat → Nat) (h : helper.sliced.Heap)
    (s f : helper.sliced.Slice) (xs : List Attr) (hf : h.holds f)
    (hsep : f.len = 0 ∨ s.cap = 0 ∨ f.array ≠ s.array) :
    f.len = 0 ∨ (h.appendWith grow s xs).2.cap = 0 ∨
      f.array ≠ (h.appendWith grow s xs).2.array := by
  unfold helper.sliced.Heap.appendWith
  obtain ⟨hf1, hf2⟩ := hf
  split
  · exact hsep
  · rcases hf2 with hf2 | ⟨hfa, _⟩
    · exact Or.inl (by omega)
    · exact Or.inr (Or.inr (by simp; omega))

mutual
theorem sliced_view_congr (h1 h2 : helper.sliced.Heap) (g : helper.sliced.AttrGroup)
    (hr : ∀ f ∈ g.slices, h1.read f = h2.read f) :
    helper.sliced.AttrGroup.view h1 g = helper.sliced.AttrGroup.view h2 g := by
  cases g with
  | mk name attrs top =>
    simp only [helper.sliced.AttrGroup.slices, List.mem_cons, forall_eq_or_imp] at hr
    simp only [helper.sliced.AttrGroup.view, hr.1, sliced_viewOpt_congr h1 h2 top hr.2]
termination_by structural g
theorem sliced_viewOpt_congr (h1 h2 : helper.sliced.Heap)
    (g : Option helper.sliced.AttrGroup)
    (hr : ∀ f ∈ helper.sliced.AttrGroup.slicesOpt g, h1.read f = h2.read f) :
    helper.sliced.AttrGroup.viewOpt h1 g = helper.sliced.AttrGroup.viewOpt h2 g := by
  cases g with
  | none => simp [helper.sliced.AttrGroup.viewOpt]
  | some head =>
    simp only [helper.sliced.AttrGroup.slicesOpt] at hr
    simp only [helper.sliced.AttrGroup.viewOpt, sliced_view_congr h1 h2 head hr]
termination_by structural g
end

theorem sliced_clone_eq (g : helper.sliced.AttrGroup) : g.clone = g := by
  cases g with
  | mk name attrs top =>
    simp [helper.sliced.AttrGroup.clone, helper.sliced.AttrGroup.name,
      helper.sliced.AttrGroup.attrs, helper.sliced.AttrGroup.top]

theorem sliced_WithAttrsWith_view (grow : Nat → Nat → Nat) (hgrow : ∀ c n, n ≤ grow c n)
    (h : helper.sliced.Heap) (g : helper.sliced.AttrGroup) (xs : List Attr)
    (hl : g.ownLayout h) :
    helper.sliced.AttrGroup.view (helper.sliced.AttrGroup.WithAttrsWith grow h g xs).1
        (helper.sliced.AttrGroup.WithAttrsWith grow h g xs).2 =
        (helper.sliced.AttrGroup.view h g).WithAttrs xs ∧
      (helper.sliced.AttrGroup.WithAttrsWith grow h g xs).2.ownLayout
        (helper.sliced.AttrGroup.WithAttrsWith grow h g xs).1 := by
  cases g with
  | mk name attrs top =>
    obtain ⟨hs, hanc⟩ := hl
    simp only [helper.sliced.AttrGroup.attrs, helper.sliced.AttrGroup.top] at hs hanc
    unfold helper.sliced.AttrGroup.WithAttrsWith
    by_cases hx : xs.length = 0
    · have hxs : xs = [] := List.length_eq_zero.1 hx
      subst hxs
      simp only [List.length_nil, if_true, sliced_clone_eq]
      refine ⟨?_, ⟨hs, hanc⟩⟩
      simp [helper.AttrGroup.WithAttrs, helper.AttrGroup.clone_eq]
    · have hxs : xs ≠ [] := fun hc => hx (by simp [hc])
      simp only [hx, if_false, helper.sliced.AttrGroup.name, helper.sliced.AttrGroup.attrs,
        helper.sliced.AttrGroup.top]
      constructor
      · simp only [helper.sliced.AttrGroup.view,
          sliced_appendWith_read grow h attrs xs hs hxs]
        rw [sliced_viewOpt_congr _ h top (fun f hf =>
          sliced_appendWith_read_old grow h attrs f xs (hanc f hf).1 hxs (hanc f hf).2)]
        simp [helper.AttrGroup.WithAttrs, hx, helper.AttrGroup.name, helper.AttrGroup.attrs,
          helper.AttrGroup.top]
      · refine ⟨sliced_appendWith_holds_new grow hgrow h attrs xs hs hxs, ?_⟩
        intro f hf
        simp only [helper.sliced.AttrGroup.top] at hf
        exact ⟨sliced_appendWith_holds_old grow h attrs f xs hs (hanc f hf).1,
          sliced_appendWith_sep grow h attrs f xs (hanc f hf).1 (hanc f hf).2⟩

theorem sliced_WithGroup_view (h : helper.sliced.Heap) (g : helper.sliced.AttrGroup)
    (name : String) (hl : g.ownLayout h) :
    helper.sliced.AttrGroup.view h (g.WithGroup name) =
        (helper.sliced.AttrGroup.view h g).WithGroup name ∧
      (g.WithGroup name).ownLayout h := by
  unfold helper.sliced.AttrGroup.WithGroup
  by_cases hn : name = ""
  · simp only [hn, if_true, sliced_clone_eq]
    exact ⟨by simp [helper.AttrGroup.WithGroup, helper.AttrGroup.clone_eq], hl⟩
  · simp only [hn, if_false]
    constructor
    · simp [helper.sliced.AttrGroup.view, helper.sliced.AttrGroup.viewOpt,
        helper.AttrGroup.WithGroup, hn, helper.sliced.Heap.read]
    · obtain ⟨hs, hanc⟩ := hl
      refine ⟨⟨Nat.le_refl _, Or.inl rfl⟩, ?_⟩
      intro f hf
      simp only [helper.sliced.AttrGroup.top, helper.sliced.AttrGroup.slicesOpt] at hf
      cases g with
      | mk gname gattrs gtop =>
        simp only [helper.sliced.AttrGroup.slices, List.mem_cons] at hf
        simp only [helper.sliced.AttrGroup.attrs, helper.sliced.AttrGroup.top] at hs hanc
        rcases hf with hf | hf
        · rw [hf]
          exact ⟨hs, Or.inr (Or.inl rfl)⟩
        · exact ⟨(hanc f hf).1, Or.inr (Or.inl rfl)⟩

theorem sliced_byValue_WithAttrs (grow : Nat → Nat → Nat) (hgrow : ∀ c n, n ≤ grow c n)
    (heap : helper.sliced.Heap) (h : logrus.sliced.Handler) (xs : List Attr)
    (hl : h.attrGroup.ownLayout heap) :
    (h.WithAttrs grow heap xs).2.byValue (h.WithAttrs grow heap xs).1 =
        (h.byValue heap).WithAttrs xs ∧
      (h.WithAttrs grow heap xs).2.attrGroup.ownLayout (h.WithAttrs grow heap xs).1 := by
  obtain ⟨hv, ho⟩ := sliced_WithAttrsWith_view grow hgrow heap h.attrGroup xs hl
  constructor
  · simp only [logrus.sliced.Handler.WithAttrs, logrus.sliced.Handler.clone,
      logrus.sliced.Handler.byValue, logrus.Handler.WithAttrs, logrus.Handler.clone, hv]
  · simpa only [logrus.sliced.Handler.WithAttrs, logrus.sliced.Handler.clone] using ho

theorem sliced_byValue_WithGroup (heap : helper.sliced.Heap) (h : logrus.sliced.Handler)
    (name : String) (hl : h.attrGroup.ownLayout heap) :
    (h.WithGroup name).byValue heap = (h.byValue heap).WithGroup name ∧
      (h.WithGroup name).attrGroup.ownLayout heap := by
  obtain ⟨hv, ho⟩ := sliced_WithGroup_view heap h.attrGroup name hl
  constructor
  · simp only [logrus.sliced.Handler.WithGroup, logrus.sliced.Handler.clone,
      logrus.sliced.Handler.byValue, logrus.Handler.WithGroup, logrus.Handler.clone, hv]
  · simpa only [logrus.sliced.Handler.WithGroup, logrus.sliced.Handler.clone] using ho

theorem deriveSliced_byValue (grow : Nat → Nat → Nat) (hgrow : ∀ c n, n ≤ grow c n)
    (ops : List Op) :
    ∀ p : helper.sliced.Heap × logrus.sliced.Handler, p.2.attrGroup.ownLayout p.1 →
      (deriveSliced grow p ops).2.byValue (deriveSliced grow p ops).1 =
          deriveLogrus (p.2.byValue p.1) ops ∧
        (deriveSliced grow p ops).2.attrGroup.ownLayout (deriveSliced grow p ops).1 := by
  induction ops with
  | nil =>
    intro p hl
    exact ⟨by simp [deriveSliced, deriveLogrus], by simpa [deriveSliced] using hl⟩
  | cons op ops ih =>
    intro p hl
    simp only [deriveSliced, deriveLogrus, List.foldl_cons]
    cases op with
    | withAttrs attrs =>
      obtain ⟨hv, ho⟩ := sliced_byValue_WithAttrs grow hgrow p.1 p.2 attrs hl
      have ih1 := ih (p.2.WithAttrs grow p.1 attrs) ho
      simp only [deriveSliced, deriveLogrus, hv] at ih1
      exact ih1
    | withGroup name =>
      obtain ⟨hv, ho⟩ := sliced_byValue_WithGroup p.1 p.2 name hl
      have ih1 := ih (p.1, p.2.WithGroup name) ho
      simp only [deriveSliced, deriveLogrus, hv] at ih1
      exact ih1

theorem sliced_mergedAttrs_eq (grow : Nat → Nat → Nat) (hgrow : ∀ c n, n ≤ grow c n)
    (heap : helper.sliced.Heap) (h : logrus.sliced.Handler) (r : Record)
    (hl : h.attrGroup.ownLayout heap) :
    h.mergedAttrs grow heap r = (h.byValue heap).mergedAttrs r := by
  obtain ⟨hv, _⟩ := sliced_WithAttrsWith_view grow hgrow heap h.attrGroup
    (r.attrs.filter (fun a => a.Key ≠ "")) hl
  simp only [logrus.sliced.Handler.mergedAttrs, logrus.sliced.Handler.heapAfter,
    helper.sliced.AttrGroup.Attrs, hv, logrus.Handler.mergedAttrs,
    logrus.sliced.Handler.byValue]

theorem sliced_flatten_eq (grow : Nat → Nat → Nat) (hgrow : ∀ c n, n ≤ grow c n)
    (heap : helper.sliced.Heap) (h : logrus.sliced.Handler) (r : Record)
    (hl : h.attrGroup.ownLayout heap) :
    h.flatten grow heap r = (h.byValue heap).flatten r := by
  simp only [logrus.sliced.Handler.flatten, logrus.Handler.flatten,
    sliced_mergedAttrs_eq grow hgrow heap h r hl]
  rfl

theorem sliced_Handle_eq (grow : Nat → Nat → Nat) (hgrow : ∀ c n, n ≤ grow c n)
    (cf : Nat → Frame) (heap : helper.sliced.Heap) (h : logrus.sliced.Handler)
    (r : Record) (logr : logrus.Logger) (hl : h.attrGroup.ownLayout heap) :
    ((h.Handle grow cf heap r logr).1, (h.Handle grow cf heap r logr).2.1) =
      (h.byValue heap).Handle cf r logr := by
  have hf := sliced_flatten_eq grow hgrow heap h r hl
  unfold logrus.sliced.Handler.Handle logrus.Handler.Handle
  rw [hf]
  cases (h.byValue heap).flatten r with
  | error e => rfl
  | ok m => rfl

theorem sliced_NewHandler_layout (heap : helper.sliced.Heap)
    (options : logrus.HandlerOptions) :
    (logrus.sliced.NewHandler options).attrGroup.ownLayout heap ∧
      (logrus.sliced.NewHandler options).byValue heap = logrus.NewHandler options := by
  constructor
  · refine ⟨⟨Nat.le_refl _, Or.inl rfl⟩, ?_⟩
    intro f hf
    simp [logrus.sliced.NewHandler, helper.sliced.AttrGroup.empty,
      helper.sliced.AttrGroup.top, helper.sliced.AttrGroup.slicesOpt] at hf
  · simp [logrus.sliced.NewHandler, logrus.sliced.Handler.byValue, logrus.NewHandler,
      helper.sliced.AttrGroup.empty, helper.sliced.AttrGroup.view,
      helper.sliced.AttrGroup.viewOpt, helper.sliced.Heap.read, helper.AttrGroup.empty]

/-! ## Claim C4, with the slices kept -/

/-- C4, as the code has it: a logrus handler is derived from a fresh root in
dot-qualified mode by steps `WithAttrs` and `WithGroup` of a non-empty name,
nothing else appending to a chain of the derivation before `Handle` is called
on it; all attributes are non-group attributes with a non-empty key and
flattening succeeds on the record. Then, whatever the heap was before and
whatever capacity the runtime gives a new backing array, `Handle` returns no
error and writes once; the fields written have pairwise distinct keys and,
the keys that `Handle` assigns itself for the record (time, file, func) apart,
they are exactly the expected entries: one per attribute added beforehand or
carried by the record, keyed by the names of the groups opened before it was
added and its own key joined with dots, with the attribute's value. Without a
timestamp and a source location no key is set apart. -/
theorem logrus_handle_chain_fields (grow : Nat → Nat → Nat)
    (hgrow : ∀ c n, n ≤ grow c n) (cf : Nat → Frame) (heap0 : helper.sliced.Heap)
    (options : logrus.HandlerOptions) (ops : List Op) (r : Record) (logr : logrus.Logger)
    (hjson : options.JSONFormatter = false)
    (hops : ∀ op ∈ ops, op.plain)
    (hrec : ∀ a ∈ r.attrs, a.isGroup = false ∧ a.Key ≠ "")
    (hok : ∃ m, (deriveSliced grow (heap0, logrus.sliced.NewHandler options) ops).2.flatten
      grow (deriveSliced grow (heap0, logrus.sliced.NewHandler options) ops).1 r = .ok m) :
    ∃ fields,
      ((deriveSliced grow (heap0, logrus.sliced.NewHandler options) ops).2.Handle grow cf
        (deriveSliced grow (heap0, logrus.sliced.NewHandler options) ops).1 r logr).1 =
        none ∧
      ((deriveSliced grow (heap0, logrus.sliced.NewHandler options) ops).2.Handle grow cf
        (deriveSliced grow (heap0, logrus.sliced.NewHandler options) ops).1 r logr).2.1 =
        logr ++ [⟨logrus.level2LogrusLevel r.Level, r.Message, fields⟩] ∧
      (fields.map Prod.fst).Nodup ∧
      (expectedEntries [] ops r.attrs).length = Op.attrCount ops + r.attrs.length ∧
      ((expectedEntries [] ops r.attrs).map Prod.fst).Nodup ∧
      (∀ k, k ∉ (deriveSliced grow (heap0, logrus.sliced.NewHandler options) ops).2.ownKeys r →
        ∀ v, (k, v) ∈ fields ↔ (k, v) ∈ toFields (expectedEntries [] ops r.attrs)) ∧
      (r.Time = 0 → r.PC = 0 → fields.Perm (toFields (expectedEntries [] ops r.attrs))) := by
  obtain ⟨hl0, hv0⟩ := sliced_NewHandler_layout heap0 options
  obtain ⟨hv, hl⟩ := deriveSliced_byValue grow hgrow ops
    (heap0, logrus.sliced.NewHandler options) hl0
  simp only [hv0] at hv
  have hfl := sliced_flatten_eq grow hgrow _ _ r hl
  have hH := sliced_Handle_eq grow hgrow cf _ _ r logr hl
  rw [hv] at hfl hH
  rw [hfl] at hok
  obtain ⟨fields, h1, h2, h3, h4, h5, h6⟩ :=
    logrus_chain_fields_by_value cf options ops r logr hjson hops hrec hok
  rw [h1] at hH
  have hown : (deriveSliced grow (heap0, logrus.sliced.NewHandler options) ops).2.ownKeys r =
      (deriveLogrus (logrus.NewHandler options) ops).ownKeys r := by
    rw [← hv]
    rfl
  refine ⟨fields, (Prod.mk.inj hH).1, (Prod.mk.inj hH).2, h2, h3, h4, ?_, h6⟩
  intro k hk v
  rw [hown] at hk
  exact h5 k hk v

/-- Witness of C4: the chain
`WithAttrs([p1=1]).WithGroup("s1").WithAttrs([p2=2]).WithGroup("s2")` derived
on an empty heap with the capacities of `growCap`, handling `[a=1, b="two"]`
without timestamp and source location; the expected entries are
`p1:1, s1.p2:2, s1.s2.a:1, s1.s2.b:"two"`. -/
theorem logrus_handle_chain_fields_witness :
    (∀ c n, n ≤ helper.sliced.growCap c n) ∧
      (∃ fields,
        ((deriveSliced helper.sliced.growCap ([], logrus.sliced.NewHandler ⟨false, false, 0⟩)
            [.withAttrs [.leaf "p1" (.int 1)], .withGroup "s1",
              .withAttrs [.leaf "p2" (.int 2)], .withGroup "s2"]).2.Handle
          helper.sliced.growCap (fun _ => ⟨"", 0, ""⟩)
          (deriveSliced helper.sliced.growCap ([], logrus.sliced.NewHandler ⟨false, false, 0⟩)
            [.withAttrs [.leaf "p1" (.int 1)], .withGroup "s1",
              .withAttrs [.leaf "p2" (.int 2)], .withGroup "s2"]).1
          ⟨0, "message", 0, 0, [.leaf "a" (.int 1), .leaf "b" (.str "two")]⟩ []).1 = none ∧
        ((deriveSliced helper.sliced.growCap ([], logrus.sliced.NewHandler ⟨false, false, 0⟩)
            [.withAttrs [.leaf "p1" (.int 1)], .withGroup "s1",
              .withAttrs [.leaf "p2" (.int 2)], .withGroup "s2"]).2.Handle
          helper.sliced.growCap (fun _ => ⟨"", 0, ""⟩)
          (deriveSliced helper.sliced.growCap ([], logrus.sliced.NewHandler ⟨false, false, 0⟩)
            [.withAttrs [.leaf "p1" (.int 1)], .withGroup "s1",
              .withAttrs [.leaf "p2" (.int 2)], .withGroup "s2"]).1
          ⟨0, "message", 0, 0, [.leaf "a" (.int 1), .leaf "b" (.str "two")]⟩ []).2.1 =
          [] ++ [⟨logrus.level2LogrusLevel 0, "message", fields⟩] ∧
        (fields.map Prod.fst).Nodup ∧
        (expectedEntries [] [.withAttrs [.leaf "p1" (.int 1)], .withGroup "s1",
              .withAttrs [.leaf "p2" (.int 2)], .withGroup "s2"]
            [.leaf "a" (.int 1), .leaf "b" (.str "two")]).length =
          Op.attrCount [.withAttrs [.leaf "p1" (.int 1)], .withGroup "s1",
              .withAttrs [.leaf "p2" (.int 2)], .withGroup "s2"] + 2 ∧
        ((expectedEntries [] [.withAttrs [.leaf "p1" (.int 1)], .withGroup "s1",
              .withAttrs [.leaf "p2" (.int 2)], .withGroup "s2"]
            [.leaf "a" (.int 1), .leaf "b" (.str "two")]).map Prod.fst).Nodup ∧
        (∀ k, k ∉ (deriveSliced helper.sliced.growCap
            ([], logrus.sliced.NewHandler ⟨false, false, 0⟩)
            [.withAttrs [.leaf "p1" (.int 1)], .withGroup "s1",
              .withAttrs [.leaf "p2" (.int 2)], .withGroup "s2"]).2.ownKeys
            ⟨0, "message", 0, 0, [.leaf "a" (.int 1), .leaf "b" (.str "two")]⟩ →
          ∀ v, (k, v) ∈ fields ↔ (k, v) ∈ toFields (expectedEntries []
            [.withAttrs [.leaf "p1" (.int 1)], .withGroup "s1",
              .withAttrs [.leaf "p2" (.int 2)], .withGroup "s2"]
            [.leaf "a" (.int 1), .leaf "b" (.str "two")])) ∧
        ((0 : Int) = 0 → (0 : Nat) = 0 → fields.Perm (toFields (expectedEntries []
            [.withAttrs [.leaf "p1" (.int 1)], .withGroup "s1",
              .withAttrs [.leaf "p2" (.int 2)], .withGroup "s2"]
            [.leaf "a" (.int 1), .leaf "b" (.str "two")])))) ∧
      expectedEntries [] [.withAttrs [.leaf "p1" (.int 1)], .withGroup "s1",
            .withAttrs [.leaf "p2" (.int 2)], .withGroup "s2"]
          [.leaf "a" (.int 1), .leaf "b" (.str "two")] =
        [("p1", .int 1), ("s1.p2", .int 2), ("s1.s2.a", .int 1), ("s1.s2.b", .str "two")] :=
  ⟨fun c n => by unfold helper.sliced.growCap; split <;> omega,
    logrus_handle_chain_fields helper.sliced.growCap
      (fun c n => by unfold helper.sliced.growCap; split <;> omega)
      (fun _ => ⟨"", 0, ""⟩) [] ⟨false, false, 0⟩
      [.withAttrs [.leaf "p1" (.int 1)], .withGroup "s1",
        .withAttrs [.leaf "p2" (.int 2)], .withGroup "s2"]
      ⟨0, "message", 0, 0, [.leaf "a" (.int 1), .leaf "b" (.str "two")]⟩ [] rfl
      (by simp [Op.plain, Attr.isGroup, Attr.Key])
      (by simp [Attr.isGroup, Attr.Key])
      ⟨[("s1.p2", .scalar (.int 2)), ("s1.s2.a", .scalar (.int 1)),
        ("s1.s2.b", .scalar (.str "two")), ("p1", .scalar (.int 1))], rfl⟩,
    by decide⟩

/-- Evaluation of the case that the statement on derived handlers sets apart,
another call appending in between: after
`h1 := NewHandler(...).WithAttrs([a=1]).WithAttrs([b=2]).WithAttrs([c=3])` and
`h2 := h1.WithAttrs([x=4])`, handling a record with the attribute `y=5` on `h1`
appends into the backing array that `h2` reads, and `h2` then writes
`a, b, c, y` for a record without attributes. -/
theorem logrus_handle_after_parent_handle :
    ((logrus.sliced.Handler.WithAttrs helper.sliced.growCap
        (deriveSliced helper.sliced.growCap ([], logrus.sliced.NewHandler ⟨false, false, 0⟩)
          [.withAttrs [.leaf "a" (.int 1)], .withAttrs [.leaf "b" (.int 2)],
            .withAttrs [.leaf "c" (.int 3)]]).1
        (deriveSliced helper.sliced.growCap ([], logrus.sliced.NewHandler ⟨false, false, 0⟩)
          [.withAttrs [.leaf "a" (.int 1)], .withAttrs [.leaf "b" (.int 2)],
            .withAttrs [.leaf "c" (.int 3)]]).2
        [.leaf "x" (.int 4)]).2.Handle helper.sliced.growCap (fun _ => ⟨"", 0, ""⟩)
      ((deriveSliced helper.sliced.growCap ([], logrus.sliced.NewHandler ⟨false, false, 0⟩)
          [.withAttrs [.leaf "a" (.int 1)], .withAttrs [.leaf "b" (.int 2)],
            .withAttrs [.leaf "c" (.int 3)]]).2.Handle helper.sliced.growCap
        (fun _ => ⟨"", 0, ""⟩)
        (logrus.sliced.Handler.WithAttrs helper.sliced.growCap
          (deriveSliced helper.sliced.growCap
            ([], logrus.sliced.NewHandler ⟨false, false, 0⟩)
            [.withAttrs [.leaf "a" (.int 1)], .withAttrs [.leaf "b" (.int 2)],
              .withAttrs [.leaf "c" (.int 3)]]).1
          (deriveSliced helper.sliced.growCap
            ([], logrus.sliced.NewHandler ⟨false, false, 0⟩)
            [.withAttrs [.leaf "a" (.int 1)], .withAttrs [.leaf "b" (.int 2)],
              .withAttrs [.leaf "c" (.int 3)]]).2
          [.leaf "x" (.int 4)]).1
        ⟨0, "first", 0, 0, [.leaf "y" (.int 5)]⟩ []).2.2
      ⟨0, "second", 0, 0, []⟩ []).2.1 =
      [⟨logrus.InfoLevel, "second",
        [("a", .scalar (.int 1)), ("b", .scalar (.int 2)), ("c", .scalar (.int 3)),
          ("y", .scalar (.int 5))]⟩] :=
  rfl
